import Mathlib

/-!
Verification of the text transcoding engine of the codetranslators repository
(src/app/routes/home.tsx).

Strings are modelled as lists of Unicode code points (`List Nat`): the
JavaScript spread `[...s]` iterates code points, which is how every transducer
in the source walks its input.  JavaScript string builtins used by the source
(toUpperCase restricted to ASCII, TextEncoder/TextDecoder, btoa/atob,
encodeURIComponent/decodeURIComponent, escape/unescape) are modelled after
their specified behaviour; each model carries a comment saying what it covers.
-/

namespace CodeTranslators

/-- Code points of a Lean string literal, used to transliterate the string
literals of the source. -/
def codes (s : String) : List Nat := s.data.map Char.toNat

/-- Model of String.prototype.toUpperCase restricted to ASCII: the source
applies toUpperCase to Morse input text and to binary digit strings; on every
input appearing in the theorems below (ASCII letters, digits, punctuation,
dots, dashes and spaces) this agrees with the full Unicode simple case map. -/
def asciiUpper (c : Nat) : Nat := if 97 ≤ c ∧ c ≤ 122 then c - 32 else c

/-- Model of String.prototype.toLowerCase restricted to ASCII, used only to
state case-insensitive comparisons from the specification. -/
def asciiLower (c : Nat) : Nat := if 65 ≤ c ∧ c ≤ 90 then c + 32 else c

/-- The set matched by the JavaScript regular expression class backslash-s and
trimmed by String.prototype.trim: WhiteSpace plus LineTerminator. -/
def isJsSpace (c : Nat) : Bool :=
  decide (c = 9 ∨ c = 10 ∨ c = 11 ∨ c = 12 ∨ c = 13 ∨ c = 32 ∨ c = 160 ∨
    c = 0x1680 ∨ (0x2000 ≤ c ∧ c ≤ 0x200A) ∨ c = 0x2028 ∨ c = 0x2029 ∨
    c = 0x202F ∨ c = 0x205F ∨ c = 0x3000 ∨ c = 0xFEFF)

/-- Model of String.prototype.trim: drop JavaScript whitespace from both
ends. -/
def trimJs (s : List Nat) : List Nat :=
  (((s.dropWhile isJsSpace).reverse).dropWhile isJsSpace).reverse

/-- Model of Array.prototype.join with a separator list. -/
def joinSep (sep : List Nat) : List (List Nat) → List Nat
  | [] => []
  | [x] => x
  | x :: y :: rest => x ++ sep ++ joinSep sep (y :: rest)

/-- Model of String.prototype.split with a one-character separator string:
every occurrence of the character is a cut point, adjacent occurrences give
empty fields, and the empty string gives one empty field. -/
def splitOnChar (d : Nat) : List Nat → List (List Nat)
  | [] => [[]]
  | c :: rest =>
    if c = d then [] :: splitOnChar d rest
    else
      match splitOnChar d rest with
      | [] => [[c]]
      | t :: ts => (c :: t) :: ts

/-!  The Morse symbol table of the source, in source order. -/

/-- Helper building one entry of the Morse table from the two string literals
of the source. -/
def mp (k : String) (sig : String) : Nat × List Nat :=
  ((codes k).headD 0, codes sig)

/-- The MORSE table: character code point to signal string. -/
def morsePairs : List (Nat × List Nat) :=
  [ mp ("A") (".-"), mp ("B") ("-..."), mp ("C") ("-.-."), mp ("D") ("-.."),
    mp ("E") ("."), mp ("F") ("..-."), mp ("G") ("--."), mp ("H") ("...."),
    mp ("I") (".."), mp ("J") (".---"), mp ("K") ("-.-"), mp ("L") (".-.."),
    mp ("M") ("--"), mp ("N") ("-."), mp ("O") ("---"), mp ("P") (".--."),
    mp ("Q") ("--.-"), mp ("R") (".-."), mp ("S") ("..."), mp ("T") ("-"),
    mp ("U") ("..-"), mp ("V") ("...-"), mp ("W") (".--"), mp ("X") ("-..-"),
    mp ("Y") ("-.--"), mp ("Z") ("--.."),
    mp ("0") ("-----"), mp ("1") (".----"), mp ("2") ("..---"),
    mp ("3") ("...--"), mp ("4") ("....-"), mp ("5") ("....."),
    mp ("6") ("-...."), mp ("7") ("--..."), mp ("8") ("---.."),
    mp ("9") ("----."),
    mp (".") (".-.-.-"), mp (",") ("--..--"), mp ("?") ("..--.."),
    mp ("\x27") (".----."), mp ("!") ("-.-.--"), mp ("/") ("-..-."),
    mp ("(") ("-.--."), mp (")") ("-.--.-"), mp ("&") (".-..."),
    mp (":") ("---..."), mp (";") ("-.-.-."), mp ("=") ("-...-"),
    mp ("+") (".-.-."), mp ("-") ("-....-"), mp ("_") ("..--.-"),
    mp ("\x22") (".-..-."), mp ("$") ("...-..-"), mp ("@") (".--.-.") ]

/-- Lookup in the MORSE object: property access on the record literal. -/
def MORSE (c : Nat) : Option (List Nat) :=
  (morsePairs.find? (fun p => p.1 == c)).map (fun p => p.2)

/-- Lookup in REVMORSE, the inverse built by Object.fromEntries from the
reversed entries; MORSE is injective so first-match lookup is exact. -/
def REVMORSE (sig : List Nat) : Option Nat :=
  (morsePairs.find? (fun p => p.2 == sig)).map (fun p => p.1)

/-- The toMorse encoder of the source: uppercase, split on single spaces,
map each character through MORSE (dropped when unknown unless keepUnknown,
which passes the character itself through), drop empty signals, join with the
letter separator, join words with the word separator. -/
def toMorse (text letterSep wordSep : List Nat) (keepUnknown : Bool) : List Nat :=
  joinSep wordSep
    ((splitOnChar 32 (text.map asciiUpper)).map (fun word =>
      joinSep letterSep
        ((word.map (fun ch =>
          match MORSE ch with
          | some code => code
          | none => if keepUnknown then [ch] else [])).filter
            (fun s => !s.isEmpty))))

/-- Character normalisation of normalizePunctuation: en dash, em dash and
minus sign to hyphen-minus; middle dot, bullet and bullet operator to full
stop. -/
def normChar (c : Nat) : Nat :=
  if c = 0x2013 ∨ c = 0x2014 ∨ c = 0x2212 then 45
  else if c = 0xB7 ∨ c = 0x2022 ∨ c = 0x2219 then 46
  else c

/-- The four zero-width characters removed by normalizePunctuation (the
invisible literals of its third replace). -/
def isZeroWidth (c : Nat) : Bool :=
  decide (c = 0x200B ∨ c = 0x200C ∨ c = 0x200D ∨ c = 0xFEFF)

/-- The normalizePunctuation helper of fromMorse: dash and dot variants
normalised, zero-width characters removed, ends trimmed. -/
def normalizePunctuation (s : List Nat) : List Nat :=
  trimJs ((s.map normChar).filter (fun c => !isZeroWidth c))

/-- Length of the leading JavaScript-whitespace run. -/
def spaceRun (s : List Nat) : Nat := (s.takeWhile isJsSpace).length

/-- Match of the word splitter regular expression at the head of s.  The
source builds it from three alternatives tried in order: the user word
separator made literal by esc, a slash with optional surrounding whitespace,
and a run of three or more whitespace characters.  Returns the length of the
match, none when no alternative matches here. -/
def wordSepMatch (wordSep : List Nat) (s : List Nat) : Option Nat :=
  if wordSep ≠ [] ∧ wordSep.isPrefixOf s then some wordSep.length
  else
    let r := spaceRun s
    if (s.drop r).head? = some 47 then some (r + 1 + spaceRun (s.drop (r + 1)))
    else if 3 ≤ r then some r
    else none

/-- Match of a literal separator (the esc helper of the source escapes every
regular-expression metacharacter, so the separator pattern matches itself
verbatim) at the head of s. -/
def litMatch (sep : List Nat) (s : List Nat) : Option Nat :=
  if sep ≠ [] ∧ sep.isPrefixOf s then some sep.length else none

/-- Match of one or more whitespace characters (the fallback letter splitter)
at the head of s. -/
def wsRunMatch (s : List Nat) : Option Nat :=
  if 1 ≤ spaceRun s then some (spaceRun s) else none

/-- Splitting scan of String.prototype.split with a pattern that never
matches the empty string: walk left to right, cut at each match, resume after
it.  Fuel is the length of the string; every step consumes at least one
character, so the zero-fuel row is unreachable from splitMatch. -/
def splitMatchGo (m : List Nat → Option Nat) :
    Nat → List Nat → List Nat → List (List Nat)
  | _, acc, [] => [acc.reverse]
  | 0, acc, s => [acc.reverse ++ s]
  | f + 1, acc, c :: rest =>
    match m (c :: rest) with
    | some n => acc.reverse :: splitMatchGo m f [] (rest.drop (n - 1))
    | none => splitMatchGo m f (c :: acc) rest

/-- Model of String.prototype.split with a regular expression that never
matches the empty string. -/
def splitMatch (m : List Nat → Option Nat) (s : List Nat) : List (List Nat) :=
  splitMatchGo m s.length [] s

/-- The fromMorse decoder of the source: normalise punctuation, split into
words by the combined word splitter, split each word into letter tokens by
the literal letter separator (runs of whitespace when it is empty), drop
empty tokens, look each token up in REVMORSE (unknown tokens decode to
nothing, or to U+FFFD under strict), join words with single spaces. -/
def fromMorse (code letterSep wordSep : List Nat) (strict : Bool) : List Nat :=
  let cleaned := normalizePunctuation code
  let words := (splitMatch (wordSepMatch wordSep) cleaned).filter
    (fun w => !w.isEmpty)
  let decodedWords := words.map (fun w =>
    ((((if letterSep.isEmpty then splitMatch wsRunMatch w
        else splitMatch (litMatch letterSep) w)).filter
        (fun sym => !sym.isEmpty)).map (fun sym =>
      match REVMORSE sym with
      | some t => [t]
      | none => if strict then [0xFFFD] else [])).flatten)
  joinSep [32] decodedWords

/-!  Binary transducers. -/

/-- Digits of Number.prototype.toString(2) for a positive argument, most
significant first; fuel-based so that the kernel can evaluate it (fuel n is
enough for the bit count of n). -/
def binGo : Nat → Nat → List Nat
  | 0, _ => []
  | f + 1, n => if n = 0 then [] else binGo f (n / 2) ++ [48 + n % 2]

/-- Model of Number.prototype.toString(2) on a natural number. -/
def natBin (n : Nat) : List Nat := if n = 0 then [48] else binGo n n

/-- The padStart of textToBinary: left-pad with the zero digit to the next
multiple of the group size (no padding when the group size is zero, matching
the groupSize greater than zero guard). -/
def padBin (g : Nat) (l : List Nat) : List Nat :=
  if 0 < g then List.replicate (((l.length + g - 1) / g) * g - l.length) 48 ++ l
  else l

/-- The textToBinary encoder of the source: each code point in binary, padded
per group size, joined with the delimiter, optionally uppercased. -/
def textToBinary (text : List Nat) (groupSize : Nat) (delim : List Nat)
    (upper : Bool) : List Nat :=
  let out := joinSep delim (text.map (fun c => padBin groupSize (natBin c)))
  if upper then out.map asciiUpper else out

/-- The first replace of binaryToText: every character that is not a binary
digit or whitespace becomes a single space. -/
def sanitize01 (s : List Nat) : List Nat :=
  s.map (fun c => if c = 48 ∨ c = 49 ∨ isJsSpace c then c else 32)

/-- The second replace of binaryToText: each whitespace run collapses to one
space; the flag records whether the previous character was whitespace. -/
def collapseGo (prevSpace : Bool) : List Nat → List Nat
  | [] => []
  | c :: r =>
    if isJsSpace c then
      if prevSpace then collapseGo true r else 32 :: collapseGo true r
    else c :: collapseGo false r

/-- Model of parseInt(token, 2) on the tokens binaryToText produces: after
cleaning, every token consists solely of the digits 0 and 1, on which parseInt
is the binary value. -/
def parseBin (l : List Nat) : Nat := l.foldl (fun a d => a * 2 + (d - 48)) 0

/-- The binaryToText decoder of the source.  String.fromCodePoint throws on
values above 0x10FFFF; the try/catch maps that to the diagnostic string. -/
def binaryToText (binary : List Nat) : List Nat :=
  let cleaned := collapseGo false (sanitize01 (trimJs binary))
  if cleaned.isEmpty then []
  else
    let toks := (splitOnChar 32 cleaned).filter (fun t => !t.isEmpty)
    let vals := toks.map parseBin
    if vals.all (fun v => decide (v ≤ 0x10FFFF)) then vals
    else codes ("Invalid binary sequence")

/-!  UTF-8, shared by the hex, Base64 and URL transducers. -/

/-- UTF-8 bytes of one code point, as produced by TextEncoder (WHATWG
UTF-8 encode): a lone surrogate is encoded as the replacement character
U+FFFD.  The paths through encodeURIComponent never reach a surrogate, since
encodeURIComponent throws on them first. -/
def utf8EncodeChar (c : Nat) : List Nat :=
  if c < 0x80 then [c]
  else if c < 0x800 then [0xC0 + c / 64, 0x80 + c % 64]
  else if c < 0x10000 then
    if 0xD800 ≤ c ∧ c ≤ 0xDFFF then [0xEF, 0xBF, 0xBD]
    else [0xE0 + c / 4096, 0x80 + c / 64 % 64, 0x80 + c % 64]
  else [0xF0 + c / 262144, 0x80 + c / 4096 % 64, 0x80 + c / 64 % 64, 0x80 + c % 64]

/-- Model of TextEncoder().encode. -/
def utf8Encode (s : List Nat) : List Nat := s.flatMap utf8EncodeChar

/-- One step of the WHATWG UTF-8 decoder in replacement mode, at a position
whose byte is b with following bytes bs: the emitted code point (U+FFFD on
error) and how many bytes the step consumes.  On an invalid continuation
byte, consumption stops before that byte, which is reprocessed from the
initial state; at the end of input an incomplete sequence consumes what is
left and emits a single U+FFFD; each step consumes at least one byte. -/
def utf8Step (b : Nat) (bs : List Nat) : Nat × Nat :=
  if b < 0x80 then (b, 1)
  else if b < 0xC2 then (0xFFFD, 1)
  else if b < 0xE0 then
    match bs with
    | [] => (0xFFFD, 1)
    | b1 :: _ =>
      if 0x80 ≤ b1 ∧ b1 < 0xC0 then ((b - 0xC0) * 64 + (b1 - 0x80), 2)
      else (0xFFFD, 1)
  else if b < 0xF0 then
    match bs with
    | [] => (0xFFFD, 1)
    | b1 :: r =>
      if (if b = 0xE0 then 0xA0 else 0x80) ≤ b1 ∧
          b1 ≤ (if b = 0xED then 0x9F else 0xBF) then
        match r with
        | [] => (0xFFFD, 2)
        | b2 :: _ =>
          if 0x80 ≤ b2 ∧ b2 < 0xC0 then
            ((b - 0xE0) * 4096 + (b1 - 0x80) * 64 + (b2 - 0x80), 3)
          else (0xFFFD, 2)
      else (0xFFFD, 1)
  else if b < 0xF5 then
    match bs with
    | [] => (0xFFFD, 1)
    | b1 :: r =>
      if (if b = 0xF0 then 0x90 else 0x80) ≤ b1 ∧
          b1 ≤ (if b = 0xF4 then 0x8F else 0xBF) then
        match r with
        | [] => (0xFFFD, 2)
        | b2 :: r2 =>
          if 0x80 ≤ b2 ∧ b2 < 0xC0 then
            match r2 with
            | [] => (0xFFFD, 3)
            | b3 :: _ =>
              if 0x80 ≤ b3 ∧ b3 < 0xC0 then
                ((b - 0xF0) * 262144 + (b1 - 0x80) * 4096 +
                  (b2 - 0x80) * 64 + (b3 - 0x80), 4)
              else (0xFFFD, 3)
          else (0xFFFD, 2)
      else (0xFFFD, 1)
  else (0xFFFD, 1)

/-- The decoding loop: apply the step at each position and skip what it
consumed.  Fuel is the byte count; every step consumes at least one byte, so
the zero-fuel row is unreachable from utf8DecodeNF. -/
def utf8DecodeGo : Nat → List Nat → List Nat
  | _, [] => []
  | 0, _ :: _ => []
  | f + 1, b :: bs =>
    (utf8Step b bs).1 :: utf8DecodeGo f (bs.drop ((utf8Step b bs).2 - 1))

/-- Model of TextDecoder().decode with default options, the WHATWG UTF-8
decoder in replacement mode: it never throws; every byte that cannot extend a
valid sequence yields U+FFFD.  Because this decoder never throws, the catch
branch of hexToText is unreachable. -/
def utf8DecodeNF (s : List Nat) : List Nat := utf8DecodeGo s.length s

/-!  Hex transducers. -/

/-- One hex digit character, lowercase as produced by toString(16), uppercase
after the toUpperCase of textToHex. -/
def hexDigChar (up : Bool) (d : Nat) : Nat :=
  if d < 10 then 48 + d else if up then 55 + d else 87 + d

/-- Two-digit zero-padded hex rendering of one byte. -/
def hexPair (up : Bool) (b : Nat) : List Nat :=
  [hexDigChar up (b / 16), hexDigChar up (b % 16)]

/-- The parts array loop of textToHex: one hex pair per byte, and after every
bytesPerGroup-th byte (when bytesPerGroup exceeds one) the delimiter string is
pushed as an extra element. -/
def hexPartsGo (delim : List Nat) (up : Bool) (bpg : Nat) (i : Nat) :
    List Nat → List (List Nat)
  | [] => []
  | b :: rest =>
    hexPair up b ::
      (if 1 < bpg ∧ (i + 1) % bpg = 0 then
        delim :: hexPartsGo delim up bpg (i + 1) rest
      else hexPartsGo delim up bpg (i + 1) rest)

/-- Regular-expression metacharacters: a delimiter character outside this set
spliced into the trailing-trim pattern stands for itself. -/
def regexLit (d : Nat) : Bool :=
  !(decide (d = 92 ∨ d = 94 ∨ d = 36 ∨ d = 46 ∨ d = 124 ∨ d = 63 ∨ d = 42 ∨
    d = 43 ∨ d = 40 ∨ d = 41 ∨ d = 91 ∨ d = 93 ∨ d = 123 ∨ d = 125))

/-- Strip the maximal trailing run of the character d: the replacement of the
first match of the pattern d-plus-end for a literal character d. -/
def stripTrailRun (d : Nat) (s : List Nat) : List Nat :=
  ((s.reverse).dropWhile (fun c => c == d)).reverse

/-- The JavaScript line terminators, which the dot of a regular expression
does not match. -/
def lineTerm (c : Nat) : Bool :=
  decide (c = 10 ∨ c = 13 ∨ c = 0x2028 ∨ c = 0x2029)

/-- Replacement of the first match of the pattern dot-plus-end: the maximal
line-terminator-free suffix is removed when it is nonempty. -/
def stripLastLine (s : List Nat) : List Nat :=
  let run := (s.reverse).takeWhile (fun c => !lineTerm c)
  if run.isEmpty then s else ((s.reverse).drop run.length).reverse

/-- The final replace of textToHex builds a regular expression by splicing the
delimiter string in front of plus-end, with no try/catch, so the delimiter is
interpreted as pattern text.  Modelled for the delimiters exercised by this
development: a single literal character (strip the trailing run) and the
single dot (strip the last nonempty line).  For other delimiter shapes the
source either performs a further regular-expression replace or, when the
splice makes the pattern invalid (for example the delimiter left parenthesis
gives the pattern left-parenthesis-plus-end), throws an uncaught SyntaxError
from the RegExp constructor, so textToHex of the source is NOT total over all
delimiters; the fallback arm here returns the string unchanged, stands in for
none of those behaviours, and no theorem below reaches it. -/
def replaceTrailRegex (delim s : List Nat) : List Nat :=
  match delim with
  | [d] => if d = 46 then stripLastLine s
           else if regexLit d then stripTrailRun d s else s
  | _ => s

/-- The textToHex encoder of the source: UTF-8 bytes, hex pairs with group
delimiters pushed as extra parts, all joined with the delimiter, then the
trailing-delimiter regular-expression replace. -/
def textToHex (text delim : List Nat) (up : Bool) (bpg : Nat) : List Nat :=
  replaceTrailRegex delim (joinSep delim (hexPartsGo delim up bpg 0 (utf8Encode text)))

/-- The character class of the hexToText strip: hexadecimal digits of either
case. -/
def isHexDigitC (c : Nat) : Bool :=
  decide ((48 ≤ c ∧ c ≤ 57) ∨ (97 ≤ c ∧ c ≤ 102) ∨ (65 ≤ c ∧ c ≤ 70))

/-- Value of one hex digit character, either case; none otherwise. -/
def hexVal? (c : Nat) : Option Nat :=
  if 48 ≤ c ∧ c ≤ 57 then some (c - 48)
  else if 97 ≤ c ∧ c ≤ 102 then some (c - 87)
  else if 65 ≤ c ∧ c ≤ 70 then some (c - 55)
  else none

/-- Value of one hex digit character with default zero (the calls below only
reach it on genuine hex digits). -/
def hexValD (c : Nat) : Nat := (hexVal? c).getD 0

/-- The byte loop of hexToText: parseInt of consecutive two-character
slices. -/
def hexPairsToBytes : List Nat → List Nat
  | [] => []
  | [a] => [hexValD a]
  | a :: b :: r => (hexValD a * 16 + hexValD b) :: hexPairsToBytes r

/-- The hexToText decoder of the source: keep hex digits, fail on odd length,
decode byte pairs, then TextDecoder().decode.  The default TextDecoder never
throws (replacement mode), so the catch arm returning the string
Invalid hex sequence is dead code and does not appear in the semantics. -/
def hexToText (hex : List Nat) : List Nat :=
  let cleaned := hex.filter isHexDigitC
  if cleaned.length % 2 ≠ 0 then codes ("Invalid hex length")
  else utf8DecodeNF (hexPairsToBytes cleaned)

/-!  Base64 and URL transducers, built from the JavaScript builtins the
source composes: encodeURIComponent, decodeURIComponent, escape, unescape,
btoa and atob. -/

/-- The unreserved set of encodeURIComponent: alphanumerics and
minus underscore period tilde exclamation asterisk apostrophe parentheses. -/
def uriUnreserved (c : Nat) : Bool :=
  decide ((65 ≤ c ∧ c ≤ 90) ∨ (97 ≤ c ∧ c ≤ 122) ∨ (48 ≤ c ∧ c ≤ 57) ∨
    c = 45 ∨ c = 95 ∨ c = 46 ∨ c = 126 ∨ c = 33 ∨ c = 42 ∨ c = 39 ∨
    c = 40 ∨ c = 41)

/-- Uppercase hex digit character. -/
def hexUpDig (d : Nat) : Nat := if d < 10 then 48 + d else 55 + d

/-- Percent escape of one byte, uppercase as the builtins produce. -/
def pctByte (b : Nat) : List Nat := [37, hexUpDig (b / 16), hexUpDig (b % 16)]

/-- Encoding of one code point by encodeURIComponent: unreserved characters
stand for themselves, everything else becomes the percent escapes of its
UTF-8 bytes. -/
def encURIChar (c : Nat) : List Nat :=
  if uriUnreserved c then [c] else (utf8EncodeChar c).flatMap pctByte

/-- Model of encodeURIComponent: none models the URIError it throws when the
input contains a lone surrogate. -/
def encodeURIComponentJs : List Nat → Option (List Nat)
  | [] => some []
  | c :: rest =>
    if 0xD800 ≤ c ∧ c ≤ 0xDFFF then none
    else
      match encodeURIComponentJs rest with
      | none => none
      | some r => some (encURIChar c ++ r)

/-- One step of unescape at a position whose character is c with following
characters rest: the emitted code unit and how many characters the step
consumes.  A percent followed by the letter u and four hex digits gives a
code unit; otherwise a percent followed by two hex digits gives a code unit
(the letter u is not a hex digit, so a malformed percent-u run falls back to
a literal percent); otherwise the character stands for itself. -/
def unescStep (c : Nat) (rest : List Nat) : Nat × Nat :=
  if c = 37 then
    match rest with
    | u :: h1 :: h2 :: h3 :: h4 :: _ =>
      if u = 117 then
        match hexVal? h1, hexVal? h2, hexVal? h3, hexVal? h4 with
        | some a, some b, some c2, some d => (a * 4096 + b * 256 + c2 * 16 + d, 6)
        | _, _, _, _ => (37, 1)
      else
        match hexVal? u, hexVal? h1 with
        | some a, some b => (a * 16 + b, 3)
        | _, _ => (37, 1)
    | u :: h1 :: _ =>
      match hexVal? u, hexVal? h1 with
      | some a, some b => (a * 16 + b, 3)
      | _, _ => (37, 1)
    | _ => (37, 1)
  else (c, 1)

/-- The scanning loop of unescape.  Fuel is the character count; every step
consumes at least one character, so the zero-fuel row is unreachable from
unescapeJs. -/
def unescGo : Nat → List Nat → List Nat
  | _, [] => []
  | 0, _ :: _ => []
  | f + 1, c :: rest =>
    (unescStep c rest).1 :: unescGo f (rest.drop ((unescStep c rest).2 - 1))

/-- Model of unescape. -/
def unescapeJs (s : List Nat) : List Nat := unescGo s.length s

/-- The safe set of escape: alphanumerics and at asterisk underscore plus
minus period slash. -/
def escSafe (c : Nat) : Bool :=
  decide ((65 ≤ c ∧ c ≤ 90) ∨ (97 ≤ c ∧ c ≤ 122) ∨ (48 ≤ c ∧ c ≤ 57) ∨
    c = 64 ∨ c = 42 ∨ c = 95 ∨ c = 43 ∨ c = 45 ∨ c = 46 ∨ c = 47)

/-- Encoding of one code unit by escape. -/
def escChar (c : Nat) : List Nat :=
  if escSafe c then [c]
  else if c < 256 then [37, hexUpDig (c / 16), hexUpDig (c % 16)]
  else [37, 117, hexUpDig (c / 4096 % 16), hexUpDig (c / 256 % 16),
    hexUpDig (c / 16 % 16), hexUpDig (c % 16)]

/-- Model of escape. -/
def escapeJs (s : List Nat) : List Nat := s.flatMap escChar

/-- Strict decoding of the bytes of exactly one UTF-8 encoded code point, as
the Decode algorithm of the URI builtins requires: rejects overlong forms,
surrogates and values above 0x10FFFF. -/
def utf8DecodeOne : List Nat → Option Nat
  | [b] => if b < 0x80 then some b else none
  | [b, b1] =>
    if 0xC2 ≤ b ∧ b < 0xE0 ∧ 0x80 ≤ b1 ∧ b1 < 0xC0 then
      some ((b - 0xC0) * 64 + (b1 - 0x80))
    else none
  | [b, b1, b2] =>
    if 0xE0 ≤ b ∧ b < 0xF0 ∧ 0x80 ≤ b1 ∧ b1 < 0xC0 ∧ 0x80 ≤ b2 ∧ b2 < 0xC0 then
      let cp := (b - 0xE0) * 4096 + (b1 - 0x80) * 64 + (b2 - 0x80)
      if 0x800 ≤ cp ∧ ¬(0xD800 ≤ cp ∧ cp ≤ 0xDFFF) then some cp else none
    else none
  | [b, b1, b2, b3] =>
    if 0xF0 ≤ b ∧ b < 0xF8 ∧ 0x80 ≤ b1 ∧ b1 < 0xC0 ∧ 0x80 ≤ b2 ∧ b2 < 0xC0 ∧
        0x80 ≤ b3 ∧ b3 < 0xC0 then
      let cp := (b - 0xF0) * 262144 + (b1 - 0x80) * 4096 + (b2 - 0x80) * 64 +
        (b3 - 0x80)
      if 0x10000 ≤ cp ∧ cp < 0x110000 then some cp else none
    else none
  | _ => none

/-- One step of the Decode algorithm of decodeURIComponent at a position
whose character is c with following characters rest: the decoded code point
and how many characters the step consumes, none when the algorithm throws
URIError here.  A character other than percent stands for itself; a percent
escape is one byte; a byte with the high bit set must begin a complete run
of escaped continuation bytes forming a valid UTF-8 code point. -/
def uriDecStep (c : Nat) (rest : List Nat) : Option (Nat × Nat) :=
  if c = 37 then
    match rest with
    | h1 :: h2 :: r1 =>
      match hexVal? h1, hexVal? h2 with
      | some a, some b =>
        if a * 16 + b < 0x80 then some (a * 16 + b, 3)
        else if a * 16 + b < 0xC0 then none
        else if a * 16 + b < 0xE0 then
          match r1 with
          | 37 :: g1 :: g2 :: _ =>
            match hexVal? g1, hexVal? g2 with
            | some a2, some b2 =>
              (utf8DecodeOne [a * 16 + b, a2 * 16 + b2]).map (fun cp => (cp, 6))
            | _, _ => none
          | _ => none
        else if a * 16 + b < 0xF0 then
          match r1 with
          | 37 :: g1 :: g2 :: 37 :: g3 :: g4 :: _ =>
            match hexVal? g1, hexVal? g2, hexVal? g3, hexVal? g4 with
            | some a2, some b2, some a3, some b3 =>
              (utf8DecodeOne [a * 16 + b, a2 * 16 + b2, a3 * 16 + b3]).map
                (fun cp => (cp, 9))
            | _, _, _, _ => none
          | _ => none
        else if a * 16 + b < 0xF8 then
          match r1 with
          | 37 :: g1 :: g2 :: 37 :: g3 :: g4 :: 37 :: g5 :: g6 :: _ =>
            match hexVal? g1, hexVal? g2, hexVal? g3, hexVal? g4,
                hexVal? g5, hexVal? g6 with
            | some a2, some b2, some a3, some b3, some a4, some b4 =>
              (utf8DecodeOne [a * 16 + b, a2 * 16 + b2, a3 * 16 + b3,
                a4 * 16 + b4]).map (fun cp => (cp, 12))
            | _, _, _, _, _, _ => none
          | _ => none
        else none
      | _, _ => none
    | _ => none
  else some (c, 1)

/-- The decoding loop of decodeURIComponent: apply the step at each position
and skip what it consumed.  Fuel is the character count; every successful
step consumes at least one character, so the zero-fuel row is unreachable
from decodeURIComponentJs. -/
def uriDecGo : Nat → List Nat → Option (List Nat)
  | _, [] => some []
  | 0, _ :: _ => none
  | f + 1, c :: rest =>
    match uriDecStep c rest with
    | none => none
    | some (cp, k) =>
      match uriDecGo f (rest.drop (k - 1)) with
      | none => none
      | some t => some (cp :: t)

/-- Model of decodeURIComponent; none models the thrown URIError. -/
def decodeURIComponentJs (s : List Nat) : Option (List Nat) := uriDecGo s.length s

/-- Character of the standard Base64 alphabet at an index below 64. -/
def b64Char (i : Nat) : Nat :=
  if i < 26 then 65 + i
  else if i < 52 then 71 + i
  else if i < 62 then i - 4
  else if i = 62 then 43
  else 47

/-- Index of a character in the standard Base64 alphabet. -/
def b64Idx? (c : Nat) : Option Nat :=
  if 65 ≤ c ∧ c ≤ 90 then some (c - 65)
  else if 97 ≤ c ∧ c ≤ 122 then some (c - 71)
  else if 48 ≤ c ∧ c ≤ 57 then some (c + 4)
  else if c = 43 then some 62
  else if c = 47 then some 63
  else none

/-- The Base64 encoding loop of btoa over byte values, with equals-sign
padding. -/
def btoaEnc : List Nat → List Nat
  | [] => []
  | [a] => [b64Char (a / 4), b64Char (a % 4 * 16), 61, 61]
  | [a, b] => [b64Char (a / 4), b64Char (a % 4 * 16 + b / 16),
      b64Char (b % 16 * 4), 61]
  | a :: b :: c :: r =>
    b64Char (a / 4) :: b64Char (a % 4 * 16 + b / 16) ::
      b64Char (b % 16 * 4 + c / 64) :: b64Char (c % 64) :: btoaEnc r

/-- Model of btoa: none models the InvalidCharacterError it throws when a
code unit exceeds 0xFF. -/
def btoaJs (s : List Nat) : Option (List Nat) :=
  if s.all (fun c => decide (c < 256)) then some (btoaEnc s) else none

/-- The ASCII whitespace removed by the forgiving-base64 decode of atob. -/
def b64Ws (c : Nat) : Bool := decide (c = 9 ∨ c = 10 ∨ c = 12 ∨ c = 13 ∨ c = 32)

/-- The padding step of forgiving-base64: when the length is a multiple of
four, up to two trailing equals signs are removed. -/
def b64StripPad (s : List Nat) : List Nat :=
  if s.length % 4 = 0 then
    match s.reverse with
    | e1 :: e2 :: r =>
      if e1 = 61 then (if e2 = 61 then r.reverse else (e2 :: r).reverse) else s
    | e1 :: r => if e1 = 61 then r.reverse else s
    | [] => s
  else s

/-- Alphabet check of forgiving-base64: indices of all characters, none when
any character is outside the alphabet. -/
def b64Idxs : List Nat → Option (List Nat)
  | [] => some []
  | c :: r =>
    match b64Idx? c, b64Idxs r with
    | some i, some is => some (i :: is)
    | _, _ => none

/-- The bit-assembly loop of forgiving-base64: four indices give three bytes,
a final two or three give one or two bytes discarding the leftover bits.  A
single leftover index cannot occur, the length check rules it out. -/
def b64DecGo : List Nat → List Nat
  | a :: b :: c :: d :: r =>
    (a * 4 + b / 16) :: (b % 16 * 16 + c / 4) :: (c % 4 * 64 + d) :: b64DecGo r
  | [a, b] => [a * 4 + b / 16]
  | [a, b, c] => [a * 4 + b / 16, b % 16 * 16 + c / 4]
  | _ => []

/-- Model of atob, the forgiving-base64 decode: none models the thrown
InvalidCharacterError. -/
def atobJs (s : List Nat) : Option (List Nat) :=
  let s2 := b64StripPad (s.filter (fun c => !b64Ws c))
  if s2.length % 4 = 1 then none
  else
    match b64Idxs s2 with
    | some idxs => some (b64DecGo idxs)
    | none => none

/-- The textToBase64 encoder of the source: btoa(unescape(encodeURIComponent
text)); the try/catch maps the URIError on a lone surrogate (the only
reachable throw) to the diagnostic string. -/
def textToBase64 (text : List Nat) : List Nat :=
  match encodeURIComponentJs text with
  | none => codes ("Encoding error")
  | some e =>
    match btoaJs (unescapeJs e) with
    | none => codes ("Encoding error")
    | some r => r

/-- The base64ToText decoder of the source: decodeURIComponent(escape(atob
b64)); the try/catch maps every thrown error to the diagnostic string. -/
def base64ToText (b64 : List Nat) : List Nat :=
  match atobJs b64 with
  | none => codes ("Invalid Base64")
  | some bs =>
    match decodeURIComponentJs (escapeJs bs) with
    | none => codes ("Invalid Base64")
    | some t => t

/-- The urlEncode function of the source: encodeURIComponent with no
try/catch, so the URIError on a lone surrogate escapes to the caller (the
none value). -/
def urlEncode (s : List Nat) : Option (List Nat) := encodeURIComponentJs s

/-- The urlDecode function of the source: decodeURIComponent with the thrown
URIError mapped to the diagnostic string. -/
def urlDecode (s : List Nat) : List Nat :=
  match decodeURIComponentJs s with
  | some t => t
  | none => codes ("Invalid URL encoding")

/-!  Rotation cipher and Unicode inspector. -/

/-- The wrap helper of rot.  The JavaScript remainder operator is truncated
division remainder, Int.tmod. -/
def rotWrap (shift : Int) (start c : Nat) : Nat :=
  ((((c : Int) - (start : Int) + shift).tmod 26 + 26).tmod 26 + (start : Int)).toNat

/-- Per-character action of rot: lowercase letters rotate from a, uppercase
from A, everything else passes through.  A code point outside the Basic
Multilingual Plane reads as its high surrogate under charCodeAt, which lies
outside both letter ranges, so passing the code point through unchanged is
faithful. -/
def rotChar (shift : Int) (c : Nat) : Nat :=
  if 97 ≤ c ∧ c ≤ 122 then rotWrap shift 97 c
  else if 65 ≤ c ∧ c ≤ 90 then rotWrap shift 65 c
  else c

/-- The rot function of the source. -/
def rot (text : List Nat) (shift : Int) : List Nat := text.map (rotChar shift)

/-- Classification of a code point as lowercase letter, uppercase letter or
other, used to state that rot never flips case. -/
def caseClass (c : Nat) : Nat :=
  if 97 ≤ c ∧ c ≤ 122 then 0 else if 65 ≤ c ∧ c ≤ 90 then 1 else 2

/-- Code points that are neither ASCII lowercase nor ASCII uppercase letters,
used to state that rot passes every other character through. -/
def nonLetter (c : Nat) : Bool :=
  !(decide (97 ≤ c ∧ c ≤ 122) || decide (65 ≤ c ∧ c ≤ 90))

/-- Digits of Number.prototype.toString(16) uppercased, for a positive
argument, most significant first; fuel-based for kernel evaluation. -/
def hexGo : Nat → Nat → List Nat
  | 0, _ => []
  | f + 1, n => if n = 0 then [] else hexGo f (n / 16) ++ [hexUpDig (n % 16)]

/-- Model of toString(16).toUpperCase() on a natural number. -/
def natHexUp (n : Nat) : List Nat := if n = 0 then [48] else hexGo n n

/-- The inspectUnicode function of the source: one record per code point,
with the character, its decimal value and the label U+ followed by the hex
value padded to at least four digits. -/
def inspectUnicode (s : List Nat) : List (List Nat × Nat × List Nat) :=
  s.map (fun cp =>
    ([cp], cp, [85, 43] ++ (List.replicate (4 - (natHexUp cp).length) 48 ++ natHexUp cp)))

/-!  Domain predicates used by the claims. -/

/-- A Unicode scalar value: a code point that is not a surrogate. -/
def ScalarChar (c : Nat) : Prop := c < 0x110000 ∧ ¬(0xD800 ≤ c ∧ c ≤ 0xDFFF)

/-- Unicode text: every element is a scalar value. -/
def ValidText (t : List Nat) : Prop := ∀ c ∈ t, ScalarChar c

/-- A JavaScript string in code point form: every element is a code point
(surrogates allowed, they model lone surrogate code units). -/
def JsText (t : List Nat) : Prop := ∀ c ∈ t, c < 0x110000

instance (c : Nat) : Decidable (ScalarChar c) := by
  unfold ScalarChar
  infer_instance

instance (t : List Nat) : Decidable (ValidText t) := by
  unfold ValidText
  infer_instance

instance (t : List Nat) : Decidable (JsText t) := by
  unfold JsText
  infer_instance

/-!  Rendering asserted by claim C7, for comparison against textToHex. -/

/-- Chunks of a fixed size, fuel-based. -/
def chunksGo (b : Nat) : Nat → List (List Nat) → List (List (List Nat))
  | _, [] => []
  | 0, l => [l]
  | f + 1, l => l.take b :: chunksGo b f (l.drop b)

/-- Chunks of a fixed size. -/
def chunksOf (b : Nat) (l : List (List Nat)) : List (List (List Nat)) :=
  chunksGo b l.length l

/-- The rendering claim C7 describes, written from the words of the claim:
each UTF-8 byte a two-digit zero-padded hex pair, exactly one delimiter after
every bytesPerGroup bytes, trailing delimiter trimmed.  Stated only for
comparison with textToHex. -/
def claimHexRender (text delim : List Nat) (up : Bool) (bpg : Nat) : List Nat :=
  joinSep delim ((chunksOf bpg ((utf8Encode text).map (hexPair up))).map List.flatten)

/-- The Base64 characters btoa emits for a byte list, without the padding
equals signs: the value b64StripPad recovers from btoaEnc.  Stated only for
reasoning about the atob of a btoa. -/
def b64EncCore : List Nat → List Nat
  | [] => []
  | [a] => [b64Char (a / 4), b64Char (a % 4 * 16)]
  | [a, b] => [b64Char (a / 4), b64Char (a % 4 * 16 + b / 16), b64Char (b % 16 * 4)]
  | a :: b :: c :: r =>
    b64Char (a / 4) :: b64Char (a % 4 * 16 + b / 16) ::
      b64Char (b % 16 * 4 + c / 64) :: b64Char (c % 64) :: b64EncCore r

/-- Absence of two adjacent space characters, used to reason about the word
splitter of fromMorse on encoded Morse strings. -/
def noDblSpace : List Nat → Bool
  | a :: b :: r => (decide (¬(a = 32 ∧ b = 32))) && noDblSpace (b :: r)
  | _ => true

/-!  General helper lemmas. -/

/-- Mapping a function that fixes every element of a list is the identity. -/
theorem map_id_of (f : Nat → Nat) :
    ∀ l : List Nat, (∀ c ∈ l, f c = c) → l.map f = l := by
  intro l h
  induction l with
  | nil => rfl
  | cons c rest ih =>
    simp only [List.map_cons]
    rw [h c (by simp), ih (fun x hx => h x (by simp [hx]))]

/-- Truncated remainder normalised by adding the modulus once equals the
Euclidean remainder, the identity behind the wrap helper of rot. -/
theorem tmod_fix (x : Int) : (x.tmod 26 + 26).tmod 26 = x % 26 := by
  have h26 : (0 : Int) < 26 := by norm_num
  have hlt : x.tmod 26 < 26 := Int.tmod_lt_of_pos x h26
  have hgt : -26 < x.tmod 26 := by
    rcases x with n | n
    · have h0 : (Int.ofNat n).tmod 26 = ((n % 26 : Nat) : Int) := rfl
      omega
    · have h0 : (Int.negSucc n).tmod 26 = -(((n + 1) % 26 : Nat) : Int) := rfl
      have h2 : (n + 1) % 26 < 26 := Nat.mod_lt _ (by norm_num)
      omega
  obtain ⟨q, hd⟩ : ∃ q, x.tmod 26 = x - 26 * q := ⟨x.tdiv 26, Int.tmod_def x 26⟩
  obtain ⟨r, hr⟩ : ∃ r, x.tmod 26 = r := ⟨_, rfl⟩
  rw [hr] at hd hgt hlt ⊢
  have h5 : (r + 26).tmod 26 = (r + 26) % 26 :=
    Int.tmod_eq_emod (by omega) (by norm_num)
  rw [h5]
  omega

/-- The wrap helper in closed Euclidean form. -/
theorem rotWrap_eq (s : Int) (start c : Nat) :
    rotWrap s start c = (((c : Int) - start + s) % 26 + start).toNat := by
  unfold rotWrap
  rw [tmod_fix]

/-- Applying two wraps whose shifts cancel modulo 26 returns the original
letter. -/
theorem rotWrap_inv (s1 s2 : Int) (h : (s1 + s2) % 26 = 0) (start c : Nat)
    (h1 : start ≤ c) (h2 : c ≤ start + 25) :
    rotWrap s2 start (rotWrap s1 start c) = c := by
  rw [rotWrap_eq, rotWrap_eq]
  omega

/-- Bounds of the wrap helper. -/
theorem rotWrap_bounds (s : Int) (start c : Nat) :
    start ≤ rotWrap s start c ∧ rotWrap s start c ≤ start + 25 := by
  rw [rotWrap_eq]
  omega

/-- Shifts cancelling modulo 26 invert rotChar on every code point. -/
theorem rotChar_inv (s1 s2 : Int) (h : (s1 + s2) % 26 = 0) (c : Nat) :
    rotChar s2 (rotChar s1 c) = c := by
  unfold rotChar
  by_cases hl : 97 ≤ c ∧ c ≤ 122
  · rw [if_pos hl]
    have hb := rotWrap_bounds s1 97 c
    rw [if_pos (by omega : 97 ≤ rotWrap s1 97 c ∧ rotWrap s1 97 c ≤ 122)]
    exact rotWrap_inv s1 s2 h 97 c hl.1 (by omega)
  · rw [if_neg hl]
    by_cases hu : 65 ≤ c ∧ c ≤ 90
    · rw [if_pos hu]
      have hb := rotWrap_bounds s1 65 c
      rw [if_neg (by omega : ¬(97 ≤ rotWrap s1 65 c ∧ rotWrap s1 65 c ≤ 122)),
        if_pos (by omega : 65 ≤ rotWrap s1 65 c ∧ rotWrap s1 65 c ≤ 90)]
      exact rotWrap_inv s1 s2 h 65 c hu.1 (by omega)
    · rw [if_neg hu, if_neg hl, if_neg hu]

/-- Zero shift fixes every code point. -/
theorem rotChar_zero (c : Nat) : rotChar 0 c = c := by
  unfold rotChar
  by_cases hl : 97 ≤ c ∧ c ≤ 122
  · rw [if_pos hl, rotWrap_eq]
    omega
  · rw [if_neg hl]
    by_cases hu : 65 ≤ c ∧ c ≤ 90
    · rw [if_pos hu, rotWrap_eq]
      omega
    · rw [if_neg hu]

/-- The rotation never moves a character between case classes. -/
theorem rotChar_class (s : Int) (c : Nat) :
    caseClass (rotChar s c) = caseClass c := by
  unfold rotChar caseClass
  by_cases hl : 97 ≤ c ∧ c ≤ 122
  · have hb := rotWrap_bounds s 97 c
    rw [if_pos hl, if_pos hl, if_pos (by omega : 97 ≤ rotWrap s 97 c ∧ rotWrap s 97 c ≤ 122)]
  · rw [if_neg hl, if_neg hl]
    by_cases hu : 65 ≤ c ∧ c ≤ 90
    · have hb := rotWrap_bounds s 65 c
      rw [if_pos hu, if_pos hu,
        if_neg (by omega : ¬(97 ≤ rotWrap s 65 c ∧ rotWrap s 65 c ≤ 122)),
        if_pos (by omega : 65 ≤ rotWrap s 65 c ∧ rotWrap s 65 c ≤ 90)]
    · rw [if_neg hu, if_neg hu, if_neg hl]

/-- Claim C8: for every text t and every integer shift s, rotating by s and
then by 26 minus s modulo 26 returns t; rotating by zero is the identity;
rotating by 13 twice returns t; characters that are not ASCII letters pass
through unchanged for any shift; and the case class (lowercase, uppercase,
other) of every position is preserved, so case is never flipped. -/
theorem claim_C8_rotation (t : List Nat) (s : Int) :
    rot (rot t s) (26 - s % 26) = t ∧
    rot t 0 = t ∧
    rot (rot t 13) 13 = t ∧
    rot (t.filter nonLetter) s = t.filter nonLetter ∧
    (rot t s).map caseClass = t.map caseClass := by
  refine ⟨?_, ?_, ?_, ?_, ?_⟩
  · show (t.map (rotChar s)).map (rotChar (26 - s % 26)) = t
    rw [List.map_map]
    exact map_id_of _ t (fun c _ => rotChar_inv s (26 - s % 26) (by omega) c)
  · exact map_id_of _ t (fun c _ => rotChar_zero c)
  · show (t.map (rotChar 13)).map (rotChar 13) = t
    rw [List.map_map]
    exact map_id_of _ t (fun c _ => rotChar_inv 13 13 (by norm_num) c)
  · refine map_id_of _ _ (fun c hc => ?_)
    have hn : nonLetter c = true := (List.mem_filter.mp hc).2
    simp only [nonLetter, Bool.not_eq_eq_eq_not, Bool.not_true, Bool.or_eq_false_iff,
      decide_eq_false_iff_not] at hn
    unfold rotChar
    rw [if_neg hn.1, if_neg hn.2]
  · show (t.map (rotChar s)).map caseClass = t.map caseClass
    rw [List.map_map]
    exact List.map_congr_left (fun c _ => rotChar_class s c)

/-!  Concrete evaluations settling the example-based claims. -/

/-- Counterexample to claim C4: decoding the Morse string of the claim gives
the string SOS HELP with an exclamation mark, because the token dash dot dash
dot dash dash is present in the Symbol Table (it maps to the exclamation
mark) and is therefore decoded, not dropped; so the result is not equal to
sos help under case-insensitive comparison. -/
theorem claim_C4_cex :
    (fromMorse (codes ("... --- ... / .... . .-.. .--. -.-.--")) [32]
      (codes (" / ")) false).map asciiLower ≠ codes ("sos help") := by
  decide

/-- Claim C4 amended: the decode of the claim equals SOS HELP followed by an
exclamation mark (equivalently, sos help followed by an exclamation mark under
case-insensitive comparison); the final token is the Symbol Table entry of
the exclamation mark, so it is decoded rather than dropped. -/
theorem claim_C4_amended :
    fromMorse (codes ("... --- ... / .... . .-.. .--. -.-.--")) [32]
      (codes (" / ")) false = codes ("SOS HELP!") ∧
    (codes ("SOS HELP!")).map asciiLower = codes ("sos help!") := by
  constructor
  · decide
  · decide

/-- Counterexample to claim C5: binaryToText applied to the single digit 2
returns the empty string, not a human-readable diagnostic; the invalid digit
is replaced by a space, leaving no tokens. -/
theorem claim_C5_cex : binaryToText (codes ("2")) = [] := by
  decide

/-- Claim C5 amended: hexToText on ABC (odd number of hex digits) returns the
diagnostic Invalid hex length, and binaryToText on 2 returns the empty string
(the invalid digit is treated as a separator and silently dropped); neither
throws. -/
theorem claim_C5_amended :
    hexToText (codes ("ABC")) = codes ("Invalid hex length") ∧
    binaryToText (codes ("2")) = [] := by
  constructor
  · decide
  · decide

/-- Claim C6 evaluated at the failing input: hexToText on FF returns the
single replacement character U+FFFD, because TextDecoder with default options
decodes in replacement mode and never throws, so the catch arm that would
return the diagnostic Invalid hex sequence is dead code. -/
theorem claim_C6_bug : hexToText (codes ("FF")) = [0xFFFD] := by
  decide

/-- Claim C9: textToHex of the emoji U+1F600 with space delimiter, uppercase,
one byte per group is the four space-separated two-digit byte pairs
F0 9F 98 80, and inspectUnicode of the same input yields exactly one record
with decimal code point 128512 and hex label U+1F600. -/
theorem claim_C9_framing :
    textToHex [0x1F600] [32] true 1 = codes ("F0 9F 98 80") ∧
    (splitOnChar 32 (textToHex [0x1F600] [32] true 1)).map List.length =
      [2, 2, 2, 2] ∧
    inspectUnicode [0x1F600] = [([0x1F600], 128512, codes ("U+1F600"))] := by
  refine ⟨?_, ?_, ?_⟩
  · decide
  · decide
  · decide

/-- Counterexample to claim C2: with letter separator a single space and word
separator a single dash (both non-empty, neither containing a slash),
encoding the letter T gives the single dash signal, which the decoder then
consumes as a word separator, decoding to the empty string instead of T. -/
theorem claim_C2_cex :
    fromMorse (toMorse (codes ("T")) [32] (codes ("-")) false) [32]
      (codes ("-")) false ≠ (codes ("T")).map asciiUpper := by
  decide

/-- Counterexample to claim C3: urlEncode is encodeURIComponent with no
try/catch, so on a lone surrogate the URIError escapes to the caller; in this
model the escaping fault is the value none. -/
theorem claim_C3_cex : urlEncode [0xD800] = none := by
  decide

/-- Counterexample to claim C7: with bytesPerGroup two, the delimiter pushed
after each group is itself surrounded by the join delimiter, so the group
boundary carries three delimiters, not the single delimiter the claim
describes (rendered here by claimHexRender, written from the words of the
claim). -/
theorem claim_C7_cex :
    textToHex (codes ("Hell")) [32] true 2 ≠
      claimHexRender (codes ("Hell")) [32] true 2 := by
  decide

/-!  Byte-level facts about the UTF-8 encoder and hex rendering. -/

/-- The encoder never returns an empty byte list. -/
theorem utf8EncodeChar_ne_nil (c : Nat) : utf8EncodeChar c ≠ [] := by
  unfold utf8EncodeChar
  split_ifs <;> simp

/-- The UTF-8 encoding of a nonempty text is nonempty. -/
theorem utf8Encode_ne_nil (t : List Nat) (h : t ≠ []) : utf8Encode t ≠ [] := by
  cases t with
  | nil => exact absurd rfl h
  | cons c rest =>
    show utf8EncodeChar c ++ utf8Encode rest ≠ []
    simp [utf8EncodeChar_ne_nil c]

/-- Every byte the encoder produces for a code point is below 256. -/
theorem utf8EncodeChar_lt_256 (c : Nat) (hc : c < 0x110000) :
    ∀ b ∈ utf8EncodeChar c, b < 256 := by
  intro b hb
  unfold utf8EncodeChar at hb
  split_ifs at hb <;> simp at hb <;> omega

/-- Every byte of the UTF-8 encoding of JavaScript text is below 256. -/
theorem utf8Encode_lt_256 (t : List Nat) (h : JsText t) :
    ∀ b ∈ utf8Encode t, b < 256 := by
  intro b hb
  simp only [utf8Encode, List.mem_flatMap] at hb
  obtain ⟨c, hc, hbc⟩ := hb
  exact utf8EncodeChar_lt_256 c (h c hc) b hbc

/-- Hex digit characters of digits below sixteen are hex digits in the sense
of the hexToText character class. -/
theorem hexDigChar_isHex (up : Bool) (d : Nat) (h : d < 16) :
    isHexDigitC (hexDigChar up d) = true := by
  unfold hexDigChar isHexDigitC
  split_ifs <;> simp <;> omega

/-- Numeric consequences of being a hex digit character: not a line
terminator, not a dot, not a space, not a binary-relevant space character. -/
theorem isHex_props (x : Nat) (h : isHexDigitC x = true) :
    lineTerm x = false ∧ x ≠ 46 ∧ x ≠ 32 := by
  simp only [isHexDigitC, decide_eq_true_eq] at h
  refine ⟨?_, by omega, by omega⟩
  simp only [lineTerm, decide_eq_false_iff_not]
  omega

/-- Both characters of a hex pair of a byte are hex digit characters. -/
theorem hexPair_isHex (up : Bool) (b : Nat) (hb : b < 256) :
    ∀ x ∈ hexPair up b, isHexDigitC x = true := by
  intro x hx
  simp only [hexPair, List.mem_cons, List.not_mem_nil, or_false] at hx
  rcases hx with h | h <;> subst h
  · exact hexDigChar_isHex up _ (by omega)
  · exact hexDigChar_isHex up _ (by omega)

/-- Every part pushed by the textToHex loop is the delimiter or the hex pair
of one input byte. -/
theorem hexPartsGo_mem (delim : List Nat) (up : Bool) (bpg : Nat) :
    ∀ (bytes : List Nat) (i : Nat) (p : List Nat),
      p ∈ hexPartsGo delim up bpg i bytes →
      p = delim ∨ ∃ b ∈ bytes, p = hexPair up b := by
  intro bytes
  induction bytes with
  | nil => intro i p hp; simp [hexPartsGo] at hp
  | cons b rest ih =>
    intro i p hp
    simp only [hexPartsGo, List.mem_cons] at hp
    rcases hp with h | hp
    · right; exact ⟨b, by simp, h⟩
    · have hp2 : p = delim ∨ p ∈ hexPartsGo delim up bpg (i + 1) rest := by
        split_ifs at hp with hcond
        · simp only [List.mem_cons] at hp
          exact hp.imp id id
        · right; exact hp
      rcases hp2 with h | hp3
      · left; exact h
      · rcases ih (i + 1) p hp3 with h | ⟨b2, hb2, hpb⟩
        · left; exact h
        · right; exact ⟨b2, by simp [hb2], hpb⟩

/-- With one byte per group the parts are exactly the hex pairs. -/
theorem hexPartsGo_one (delim : List Nat) (up : Bool) :
    ∀ (bytes : List Nat) (i : Nat),
      hexPartsGo delim up 1 i bytes = bytes.map (hexPair up) := by
  intro bytes
  induction bytes with
  | nil => intro i; rfl
  | cons b rest ih =>
    intro i
    simp only [hexPartsGo, List.map_cons]
    rw [if_neg (by omega : ¬(1 < 1 ∧ (i + 1) % 1 = 0)), ih (i + 1)]

/-- Characters of a joined list come from the separator or from a part. -/
theorem joinSep_mem (sep : List Nat) :
    ∀ (parts : List (List Nat)) (c : Nat), c ∈ joinSep sep parts →
      c ∈ sep ∨ ∃ p ∈ parts, c ∈ p := by
  intro parts
  induction parts with
  | nil => intro c hc; simp [joinSep] at hc
  | cons x rest ih =>
    intro c hc
    cases rest with
    | nil =>
      right
      exact ⟨x, by simp, hc⟩
    | cons y r2 =>
      simp only [joinSep, List.append_assoc, List.mem_append] at hc
      rcases hc with h | h | h
      · right; exact ⟨x, by simp, h⟩
      · left; exact h
      · rcases ih c h with h2 | ⟨p, hp, hcp⟩
        · left; exact h2
        · right; exact ⟨p, by simp [hp], hcp⟩

/-- A join whose first part is nonempty is nonempty. -/
theorem joinSep_ne_nil (sep : List Nat) (x : List Nat) (rest : List (List Nat))
    (hx : x ≠ []) : joinSep sep (x :: rest) ≠ [] := by
  cases rest with
  | nil => exact hx
  | cons y r2 =>
    show x ++ sep ++ joinSep sep (y :: r2) ≠ []
    simp [hx]

/-- Lists all of whose elements satisfy the predicate are fixed by
takeWhile. -/
theorem takeWhile_all (p : Nat → Bool) :
    ∀ l : List Nat, (∀ c ∈ l, p c = true) → l.takeWhile p = l := by
  intro l h
  induction l with
  | nil => rfl
  | cons c rest ih =>
    have hc : p c = true := h c (by simp)
    simp [List.takeWhile_cons, hc, ih (fun x hx => h x (by simp [hx]))]

/-- A nonempty string free of line terminators is deleted whole by the
dot-plus-end replacement. -/
theorem stripLastLine_all (s : List Nat) (h1 : s ≠ [])
    (h2 : ∀ c ∈ s, lineTerm c = false) : stripLastLine s = [] := by
  unfold stripLastLine
  have hrun : (s.reverse).takeWhile (fun c => !lineTerm c) = s.reverse :=
    takeWhile_all _ _ (fun c hc => by simp [h2 c (List.mem_reverse.mp hc)])
  rw [hrun]
  rw [if_neg (by simp [h1])]
  simp

/-- Claim C10: textToHex interprets its delimiter as regular-expression text
when trimming the trailing delimiter, so with the delimiter dot the trim
pattern deletes the entire output: for every nonempty JavaScript text, any
uppercase flag and any bytesPerGroup, the result is the empty string. -/
theorem claim_C10_dot_delimiter (t : List Nat) (up : Bool) (bpg : Nat)
    (h1 : JsText t) (h2 : t ≠ []) : textToHex t [46] up bpg = [] := by
  unfold textToHex
  show stripLastLine (joinSep [46] (hexPartsGo [46] up bpg 0 (utf8Encode t))) = []
  apply stripLastLine_all
  · obtain ⟨b, bytes, hb⟩ :
        ∃ b bytes, utf8Encode t = b :: bytes := by
      cases hh : utf8Encode t with
      | nil => exact absurd hh (utf8Encode_ne_nil t h2)
      | cons b bytes => exact ⟨b, bytes, rfl⟩
    rw [hb]
    show joinSep [46] (hexPartsGo [46] up bpg 0 (b :: bytes)) ≠ []
    have : hexPartsGo [46] up bpg 0 (b :: bytes) =
        hexPair up b :: (if 1 < bpg ∧ (0 + 1) % bpg = 0 then
          [46] :: hexPartsGo [46] up bpg 1 bytes
        else hexPartsGo [46] up bpg 1 bytes) := rfl
    rw [this]
    exact joinSep_ne_nil _ _ _ (by simp [hexPair])
  · intro c hc
    rcases joinSep_mem [46] _ c hc with h | ⟨p, hp, hcp⟩
    · simp only [List.mem_singleton] at h
      subst h
      decide
    · rcases hexPartsGo_mem [46] up bpg _ _ p hp with h | ⟨b, hb, hpb⟩
      · subst h
        simp only [List.mem_singleton] at hcp
        subst hcp
        decide
      · subst hpb
        have hb256 : b < 256 := utf8Encode_lt_256 t h1 b hb
        exact (isHex_props c (hexPair_isHex up b hb256 c hcp)).1

/-- Witness for claim C10 at the one-character text H. -/
theorem claim_C10_dot_delimiter_witness :
    JsText [72] ∧ [72] ≠ ([] : List Nat) ∧ textToHex [72] [46] true 1 = [] :=
  ⟨by decide, by decide, claim_C10_dot_delimiter [72] true 1 (by decide) (by decide)⟩

/-- A join of parts that all end in a character satisfying the predicate
itself ends in a character satisfying the predicate. -/
theorem joinSep_concat_form (sep : List Nat) (p : Nat → Bool) :
    ∀ parts : List (List Nat), parts ≠ [] →
      (∀ w ∈ parts, ∃ y c, w = y ++ [c] ∧ p c = true) →
      ∃ A c, joinSep sep parts = A ++ [c] ∧ p c = true := by
  intro parts
  induction parts with
  | nil => intro h; exact absurd rfl h
  | cons x rest ih =>
    intro _ hall
    cases rest with
    | nil =>
      obtain ⟨y, c, hyc, hpc⟩ := hall x (by simp)
      exact ⟨y, c, hyc, hpc⟩
    | cons z r2 =>
      obtain ⟨A, c, hA, hpc⟩ := ih (by simp)
        (fun w hw => hall w (by simp [List.mem_cons] at hw ⊢; tauto))
      refine ⟨x ++ sep ++ A, c, ?_, hpc⟩
      show x ++ sep ++ joinSep sep (z :: r2) = x ++ sep ++ A ++ [c]
      rw [hA]
      simp [List.append_assoc]

/-- Stripping a trailing run of d leaves a string ending in another character
unchanged. -/
theorem stripTrailRun_concat (d : Nat) (A : List Nat) (c : Nat) (h : c ≠ d) :
    stripTrailRun d (A ++ [c]) = A ++ [c] := by
  unfold stripTrailRun
  rw [List.reverse_append]
  show ((c :: A.reverse).dropWhile (fun x => x == d)).reverse = A ++ [c]
  rw [List.dropWhile_cons]
  simp [h]

/-- The one-byte-per-group rendering of textToHex for a literal
single-character delimiter that is not a hex digit: the hex pairs joined by
the delimiter, the trailing trim being a no-op. -/
theorem textToHex_lit (t : List Nat) (d : Nat) (up : Bool)
    (h1 : JsText t) (h2 : regexLit d = true) (h3 : isHexDigitC d = false) :
    textToHex t [d] up 1 = joinSep [d] ((utf8Encode t).map (hexPair up)) := by
  have hd46 : ¬(d = 46) := by
    intro he
    subst he
    simp [regexLit] at h2
  unfold textToHex
  show (if d = 46 then stripLastLine (joinSep [d] (hexPartsGo [d] up 1 0 (utf8Encode t)))
      else if regexLit d = true then
        stripTrailRun d (joinSep [d] (hexPartsGo [d] up 1 0 (utf8Encode t)))
      else joinSep [d] (hexPartsGo [d] up 1 0 (utf8Encode t))) =
    joinSep [d] ((utf8Encode t).map (hexPair up))
  rw [if_neg hd46, if_pos h2, hexPartsGo_one]
  cases hb : utf8Encode t with
  | nil => rfl
  | cons b bytes =>
    obtain ⟨A, c, hA, hpc⟩ := joinSep_concat_form [d] isHexDigitC
      ((b :: bytes).map (hexPair up)) (by simp)
      (by
        intro w hw
        simp only [List.mem_map] at hw
        obtain ⟨b2, hb2, hwb⟩ := hw
        have h256 : b2 < 256 := utf8Encode_lt_256 t h1 b2 (by rw [hb]; exact hb2)
        refine ⟨[hexDigChar up (b2 / 16)], hexDigChar up (b2 % 16), ?_, ?_⟩
        · rw [← hwb]; rfl
        · exact hexDigChar_isHex up _ (by omega))
    rw [hA]
    exact stripTrailRun_concat d A c (by intro he; subst he; rw [hpc] at h3; cases h3)

/-- Claim C7 amended: for bytesPerGroup one, every JavaScript text and every
single-character delimiter that is neither a regular-expression
metacharacter nor a hex digit, textToHex is exactly the two-digit zero-padded
hex pairs of the UTF-8 bytes joined by one delimiter each, with no trailing
delimiter.  For bytesPerGroup of two or more the loop pushes the delimiter as
an extra part which the join surrounds with two more copies, so a group
boundary carries three delimiters, as the second conjunct shows on the text
Hell with two bytes per group. -/
theorem claim_C7_amended (t : List Nat) (d : Nat) (up : Bool)
    (h1 : JsText t) (h2 : regexLit d = true) (h3 : isHexDigitC d = false) :
    textToHex t [d] up 1 =
      joinSep [d] ((utf8Encode t).map (hexPair up)) ∧
    textToHex (codes ("Hell")) [32] true 2 = codes ("48 65   6C 6C") := by
  constructor
  · exact textToHex_lit t d up h1 h2 h3
  · decide

/-- Witness for claim C7 amended at the text Hi with space delimiter. -/
theorem claim_C7_amended_witness :
    (JsText (codes ("Hi")) ∧ regexLit 32 = true ∧ isHexDigitC 32 = false) ∧
    (textToHex (codes ("Hi")) [32] true 1 =
        joinSep [32] ((utf8Encode (codes ("Hi"))).map (hexPair true)) ∧
      textToHex (codes ("Hell")) [32] true 2 = codes ("48 65   6C 6C")) :=
  ⟨⟨by decide, by decide, by decide⟩,
    claim_C7_amended (codes ("Hi")) 32 true (by decide) (by decide) (by decide)⟩

/-!  Binary round-trip. -/

/-- Digits produced by the binary rendering loop. -/
theorem binGo_digits : ∀ (f n : Nat), ∀ d ∈ binGo f n, d = 48 ∨ d = 49 := by
  intro f
  induction f with
  | zero => intro n d hd; simp [binGo] at hd
  | succ f ih =>
    intro n d hd
    simp only [binGo] at hd
    split_ifs at hd with h
    · simp at hd
    · rw [List.mem_append] at hd
      rcases hd with h2 | h2
      · exact ih (n / 2) d h2
      · simp at h2
        omega

/-- Digits of the full binary rendering. -/
theorem natBin_digits (n : Nat) : ∀ d ∈ natBin n, d = 48 ∨ d = 49 := by
  intro d hd
  unfold natBin at hd
  split_ifs at hd with h
  · simp at hd; omega
  · exact binGo_digits n n d hd

/-- The binary rendering is never empty. -/
theorem natBin_ne_nil (n : Nat) : natBin n ≠ [] := by
  unfold natBin
  split_ifs with h
  · simp
  · show binGo n n ≠ []
    cases n with
    | zero => exact absurd rfl h
    | succ m =>
      simp only [binGo]
      rw [if_neg (by omega : ¬(m + 1 = 0))]
      simp

/-- Digits of the padded binary rendering. -/
theorem padBin_digits (g : Nat) (l : List Nat) (h : ∀ d ∈ l, d = 48 ∨ d = 49) :
    ∀ d ∈ padBin g l, d = 48 ∨ d = 49 := by
  intro d hd
  unfold padBin at hd
  split_ifs at hd
  · rw [List.mem_append] at hd
    rcases hd with h2 | h2
    · left; exact List.eq_of_mem_replicate h2
    · exact h d h2
  · exact h d hd

/-- Padding preserves nonemptiness. -/
theorem padBin_ne_nil (g : Nat) (l : List Nat) (h : l ≠ []) : padBin g l ≠ [] := by
  unfold padBin
  split_ifs
  · simp [h]
  · exact h

/-- Folding the binary digit step over the rendering of n recovers n shifted
into the accumulator. -/
theorem binGo_foldl : ∀ (f n acc : Nat), n ≤ f →
    List.foldl (fun a d => a * 2 + (d - 48)) acc (binGo f n) =
      acc * 2 ^ (binGo f n).length + n := by
  intro f
  induction f with
  | zero =>
    intro n acc h
    have : n = 0 := by omega
    subst this
    simp [binGo]
  | succ f ih =>
    intro n acc h
    by_cases h0 : n = 0
    · subst h0
      simp [binGo]
    · have hunf : binGo (f + 1) n = binGo f (n / 2) ++ [48 + n % 2] := by
        simp [binGo, h0]
      rw [hunf, List.foldl_append, ih (n / 2) acc (by omega)]
      simp only [List.foldl_cons, List.foldl_nil, List.length_append,
        List.length_cons, List.length_nil]
      rw [pow_succ, ← mul_assoc]
      generalize acc * 2 ^ (binGo f (n / 2)).length = M
      omega

/-- Leading zero digits leave a zero accumulator unchanged. -/
theorem foldl_replicate_48 : ∀ k : Nat,
    List.foldl (fun a d => a * 2 + (d - 48)) 0 (List.replicate k 48) = 0 := by
  intro k
  induction k with
  | zero => rfl
  | succ k ih =>
    simp only [List.replicate_succ, List.foldl_cons]
    rw [show 0 * 2 + (48 - 48) = 0 by omega]
    exact ih

/-- parseBin inverts the plain binary rendering. -/
theorem parseBin_natBin (c : Nat) : parseBin (natBin c) = c := by
  unfold parseBin natBin
  split_ifs with h
  · subst h; rfl
  · rw [binGo_foldl c c 0 (le_refl c)]
    simp

/-- parseBin inverts the padded binary rendering of any code point. -/
theorem parseBin_padBin (g c : Nat) : parseBin (padBin g (natBin c)) = c := by
  unfold padBin
  split_ifs
  · show parseBin (List.replicate _ 48 ++ natBin c) = c
    unfold parseBin
    rw [List.foldl_append, foldl_replicate_48]
    exact parseBin_natBin c
  · exact parseBin_natBin c

/-- dropWhile is the identity when the first element fails the predicate. -/
theorem dropWhile_head_false (p : Nat → Bool) (s : List Nat)
    (h : ∀ c, s.head? = some c → p c = false) : s.dropWhile p = s := by
  cases s with
  | nil => rfl
  | cons c r =>
    rw [List.dropWhile_cons, if_neg (by simp [h c rfl])]

/-- Trimming is the identity on strings whose two ends are not whitespace. -/
theorem trimJs_eq (s : List Nat)
    (hh : ∀ c, s.head? = some c → isJsSpace c = false)
    (hl : ∀ c, s.getLast? = some c → isJsSpace c = false) : trimJs s = s := by
  unfold trimJs
  rw [dropWhile_head_false _ s hh]
  rw [dropWhile_head_false _ s.reverse (by
    intro c hc
    rw [List.head?_reverse] at hc
    exact hl c hc)]
  exact List.reverse_reverse s

/-- The binary sanitising replace fixes strings of binary digits and
whitespace. -/
theorem sanitize01_eq (s : List Nat)
    (h : ∀ c ∈ s, c = 48 ∨ c = 49 ∨ isJsSpace c = true) : sanitize01 s = s := by
  refine map_id_of _ s (fun c hc => ?_)
  rcases h c hc with h2 | h2 | h2 <;> rw [if_pos (by simp [h2])]

/-- One step of the collapsing replace on a non-whitespace character. -/
theorem collapseGo_cons (flag : Bool) (c : Nat) (r : List Nat)
    (hc : isJsSpace c = false) : collapseGo flag (c :: r) = c :: collapseGo false r := by
  simp [collapseGo, hc]

/-- One step of the collapsing replace on a whitespace character after a
non-whitespace one. -/
theorem collapseGo_cons_space (c : Nat) (r : List Nat) (hc : isJsSpace c = true) :
    collapseGo false (c :: r) = 32 :: collapseGo true r := by
  simp [collapseGo, hc]

/-- The collapsing replace walks through a nonempty whitespace-free block
unchanged, resetting the flag. -/
theorem collapseGo_sf : ∀ (w : List Nat), w ≠ [] →
    (∀ c ∈ w, isJsSpace c = false) → ∀ (rest : List Nat) (flag : Bool),
    collapseGo flag (w ++ rest) = w ++ collapseGo false rest := by
  intro w
  induction w with
  | nil => intro h; exact absurd rfl h
  | cons c w2 ih =>
    intro _ hsf rest flag
    have hc : isJsSpace c = false := hsf c (by simp)
    show collapseGo flag (c :: (w2 ++ rest)) = c :: (w2 ++ collapseGo false rest)
    rw [collapseGo_cons flag c _ hc]
    cases hw2 : w2 with
    | nil => simp
    | cons z zs =>
      rw [← hw2, ih (by simp [hw2]) (fun x hx => hsf x (by simp [hx])) rest false]

/-- The collapsing replace fixes whitespace-free blocks joined by single
spaces. -/
theorem collapse_joinSep : ∀ groups : List (List Nat),
    (∀ w ∈ groups, w ≠ [] ∧ ∀ c ∈ w, isJsSpace c = false) →
    collapseGo false (joinSep [32] groups) = joinSep [32] groups := by
  intro groups
  induction groups with
  | nil => intro _; rfl
  | cons w rest ih =>
    intro hall
    obtain ⟨hw, hwsf⟩ := hall w (by simp)
    cases rest with
    | nil =>
      show collapseGo false w = w
      have := collapseGo_sf w hw hwsf [] false
      simpa [collapseGo] using this
    | cons z r2 =>
      obtain ⟨hz, hzsf⟩ := hall z (by simp)
      have hallz : ∀ w2 ∈ z :: r2, w2 ≠ [] ∧ ∀ c ∈ w2, isJsSpace c = false :=
        fun w2 hw2 => hall w2 (by simp [List.mem_cons] at hw2 ⊢; tauto)
      show collapseGo false (w ++ [32] ++ joinSep [32] (z :: r2)) =
        w ++ [32] ++ joinSep [32] (z :: r2)
      obtain ⟨Q, hQ⟩ : ∃ Q, joinSep [32] (z :: r2) = z ++ Q := by
        cases r2 with
        | nil => exact ⟨[], by simp [joinSep]⟩
        | cons y r3 =>
          exact ⟨[32] ++ joinSep [32] (y :: r3), by simp [joinSep, List.append_assoc]⟩
      rw [List.append_assoc, collapseGo_sf w hw hwsf _ false]
      have h32 : collapseGo false ([32] ++ joinSep [32] (z :: r2)) =
          32 :: collapseGo true (joinSep [32] (z :: r2)) := by
        show collapseGo false (32 :: joinSep [32] (z :: r2)) = _
        exact collapseGo_cons_space 32 _ (by decide)
      rw [h32]
      have hflag : collapseGo true (joinSep [32] (z :: r2)) =
          collapseGo false (joinSep [32] (z :: r2)) := by
        rw [hQ, collapseGo_sf z hz hzsf Q true, collapseGo_sf z hz hzsf Q false]
      rw [hflag, ih hallz]
      simp

/-- splitOnChar never returns the empty list of fields. -/
theorem splitOnChar_ne_nil (d : Nat) : ∀ s : List Nat, splitOnChar d s ≠ [] := by
  intro s
  induction s with
  | nil => simp [splitOnChar]
  | cons c r ih =>
    unfold splitOnChar
    split_ifs
    · simp
    · cases h : splitOnChar d r with
      | nil => simp
      | cons t ts => simp

/-- Splitting walks through a separator-free prefix into the first field. -/
theorem splitOnChar_free_prefix (d : Nat) : ∀ (w rest t : List Nat)
    (ts : List (List Nat)), splitOnChar d rest = t :: ts →
    (∀ c ∈ w, c ≠ d) → splitOnChar d (w ++ rest) = (w ++ t) :: ts := by
  intro w
  induction w with
  | nil => intro rest t ts h _; simpa using h
  | cons c w2 ih =>
    intro rest t ts h hfree
    show splitOnChar d (c :: (w2 ++ rest)) = ((c :: w2) ++ t) :: ts
    unfold splitOnChar
    rw [if_neg (hfree c (by simp))]
    rw [ih rest t ts h (fun x hx => hfree x (by simp [hx]))]
    rfl

/-- Splitting on the separator inverts joining separator-free fields. -/
theorem splitOnChar_joinSep (d : Nat) : ∀ groups : List (List Nat),
    groups ≠ [] → (∀ w ∈ groups, ∀ c ∈ w, c ≠ d) →
    splitOnChar d (joinSep [d] groups) = groups := by
  intro groups
  induction groups with
  | nil => intro h; exact absurd rfl h
  | cons w rest ih =>
    intro _ hall
    cases rest with
    | nil =>
      show splitOnChar d w = [w]
      have h0 : splitOnChar d ([] : List Nat) = [] :: [] := rfl
      have := splitOnChar_free_prefix d w [] [] [] h0 (hall w (by simp))
      simpa using this
    | cons z r2 =>
      show splitOnChar d (w ++ [d] ++ joinSep [d] (z :: r2)) = w :: z :: r2
      have hJ : splitOnChar d (joinSep [d] (z :: r2)) = z :: r2 :=
        ih (by simp) (fun w2 hw2 => hall w2 (by simp [List.mem_cons] at hw2 ⊢; tauto))
      have hd : splitOnChar d (d :: joinSep [d] (z :: r2)) = [] :: z :: r2 := by
        unfold splitOnChar
        rw [if_pos rfl, hJ]
      rw [List.append_assoc]
      have := splitOnChar_free_prefix d w (d :: joinSep [d] (z :: r2)) [] (z :: r2)
        hd (hall w (by simp))
      rw [show [d] ++ joinSep [d] (z :: r2) = d :: joinSep [d] (z :: r2) from rfl]
      simpa using this

/-- The head of a join starting with a nonempty field. -/
theorem joinSep_head (sep : List Nat) (x : List Nat) (rest : List (List Nat))
    (hx : x ≠ []) : (joinSep sep (x :: rest)).head? = x.head? := by
  obtain ⟨c, x2, hc⟩ : ∃ c x2, x = c :: x2 := by
    cases x with
    | nil => exact absurd rfl hx
    | cons c x2 => exact ⟨c, x2, rfl⟩
  subst hc
  cases rest with
  | nil => rfl
  | cons y r2 => rfl

/-- Round-trip of the binary transducers at the default group size and
delimiter, either case flag. -/
theorem binary_roundtrip (t : List Nat) (up : Bool) (h : ValidText t) :
    binaryToText (textToBinary t 8 [32] up) = t := by
  have hgne : ∀ w ∈ t.map (fun c => padBin 8 (natBin c)), w ≠ [] := by
    intro w hw
    simp only [List.mem_map] at hw
    obtain ⟨c, _, hc⟩ := hw
    subst hc
    exact padBin_ne_nil _ _ (natBin_ne_nil c)
  have hgdig : ∀ w ∈ t.map (fun c => padBin 8 (natBin c)), ∀ d ∈ w, d = 48 ∨ d = 49 := by
    intro w hw
    simp only [List.mem_map] at hw
    obtain ⟨c, _, hc⟩ := hw
    subst hc
    exact padBin_digits 8 _ (natBin_digits c)
  have houtc : ∀ c ∈ joinSep [32] (t.map (fun c => padBin 8 (natBin c))),
      c = 48 ∨ c = 49 ∨ c = 32 := by
    intro c hc
    rcases joinSep_mem [32] _ c hc with h2 | ⟨p, hp, hcp⟩
    · right; right; simpa using h2
    · rcases hgdig p hp c hcp with h3 | h3
      · left; exact h3
      · right; left; exact h3
  have hout : textToBinary t 8 [32] up =
      joinSep [32] (t.map (fun c => padBin 8 (natBin c))) := by
    show (if up = true then
        (joinSep [32] (t.map (fun c => padBin 8 (natBin c)))).map asciiUpper
      else joinSep [32] (t.map (fun c => padBin 8 (natBin c)))) = _
    cases up with
    | false => rfl
    | true =>
      rw [if_pos rfl]
      refine map_id_of _ _ (fun c hc => ?_)
      unfold asciiUpper
      rcases houtc c hc with h2 | h2 | h2 <;> subst h2 <;> rfl
  rw [hout]
  cases ht : t with
  | nil => rfl
  | cons c0 t2 =>
    rw [← ht]
    have htne : t.map (fun c => padBin 8 (natBin c)) ≠ [] := by
      rw [ht]; simp
    obtain ⟨g0, grest, hgshape⟩ : ∃ g0 grest,
        t.map (fun c => padBin 8 (natBin c)) = g0 :: grest := by
      cases hh : t.map (fun c => padBin 8 (natBin c)) with
      | nil => exact absurd hh htne
      | cons g0 grest => exact ⟨g0, grest, rfl⟩
    have hXne : joinSep [32] (t.map (fun c => padBin 8 (natBin c))) ≠ [] := by
      rw [hgshape]
      exact joinSep_ne_nil _ _ _ (hgne g0 (by rw [hgshape]; simp))
    have hsf : ∀ w ∈ t.map (fun c => padBin 8 (natBin c)),
        w ≠ [] ∧ ∀ c ∈ w, isJsSpace c = false := by
      intro w hw
      refine ⟨hgne w hw, fun c hc => ?_⟩
      rcases hgdig w hw c hc with h2 | h2 <;> subst h2 <;> rfl
    have htrim : trimJs (joinSep [32] (t.map (fun c => padBin 8 (natBin c)))) =
        joinSep [32] (t.map (fun c => padBin 8 (natBin c))) := by
      apply trimJs_eq
      · intro c hc
        rw [hgshape] at hc
        rw [joinSep_head [32] g0 grest (hgne g0 (by rw [hgshape]; simp))] at hc
        have hcm : c ∈ g0 := by
          cases g0 with
          | nil => simp at hc
          | cons a g2 => simp at hc; simp [hc]
        rcases hgdig g0 (by rw [hgshape]; simp) c hcm with h2 | h2 <;> subst h2 <;> rfl
      · intro c hc
        obtain ⟨A, cl, hA, hcl⟩ := joinSep_concat_form [32]
          (fun d => decide (d = 48 ∨ d = 49)) _ htne
          (by
            intro w hw
            refine ⟨w.dropLast, w.getLast (hgne w hw), ?_, ?_⟩
            · exact (List.dropLast_append_getLast (hgne w hw)).symm
            · simpa using hgdig w hw _ (List.getLast_mem (hgne w hw)))
        rw [hA, List.getLast?_concat] at hc
        have hceq : cl = c := by simpa using hc
        subst hceq
        simp only [decide_eq_true_eq] at hcl
        rcases hcl with h2 | h2 <;> subst h2 <;> rfl
    have hsan : sanitize01 (joinSep [32] (t.map (fun c => padBin 8 (natBin c)))) =
        joinSep [32] (t.map (fun c => padBin 8 (natBin c))) := by
      apply sanitize01_eq
      intro c hc
      rcases houtc c hc with h2 | h2 | h2
      · left; exact h2
      · right; left; exact h2
      · right; right; subst h2; rfl
    have hcol := collapse_joinSep _ hsf
    show (let cleaned := collapseGo false (sanitize01 (trimJs
        (joinSep [32] (t.map (fun c => padBin 8 (natBin c))))));
      if cleaned.isEmpty then []
      else
        let toks := (splitOnChar 32 cleaned).filter (fun t => !t.isEmpty)
        let vals := toks.map parseBin
        if vals.all (fun v => decide (v ≤ 0x10FFFF)) then vals
        else codes ("Invalid binary sequence")) = t
    rw [htrim, hsan, hcol]
    simp only
    rw [if_neg (by simp [List.isEmpty_iff, hXne])]
    rw [splitOnChar_joinSep 32 _ htne
      (fun w hw c hc => by rcases hgdig w hw c hc with h2 | h2 <;> omega)]
    rw [List.filter_eq_self.mpr (fun w hw => by simp [hgne w hw])]
    have hvals : (t.map (fun c => padBin 8 (natBin c))).map parseBin = t := by
      rw [List.map_map]
      have : ∀ c ∈ t, (parseBin ∘ fun c => padBin 8 (natBin c)) c = c :=
        fun c _ => parseBin_padBin 8 c
      rw [List.map_congr_left this]
      simp
    rw [hvals]
    rw [if_pos (by
      rw [List.all_eq_true]
      intro v hv
      have := (h v hv).1
      simp only [decide_eq_true_eq]
      omega)]

/-!  Round-trip of the UTF-8 encoder through the replacement-mode decoder. -/

/-- Shape of the encoder on one-byte code points. -/
theorem utf8EncodeChar_a (c : Nat) (h : c < 0x80) : utf8EncodeChar c = [c] := by
  unfold utf8EncodeChar
  rw [if_pos h]

/-- Shape of the encoder on two-byte code points. -/
theorem utf8EncodeChar_b (c : Nat) (h1 : 0x80 ≤ c) (h2 : c < 0x800) :
    utf8EncodeChar c = [0xC0 + c / 64, 0x80 + c % 64] := by
  unfold utf8EncodeChar
  rw [if_neg (by omega), if_pos h2]

/-- Shape of the encoder on three-byte code points. -/
theorem utf8EncodeChar_c (c : Nat) (h1 : 0x800 ≤ c) (h2 : c < 0x10000)
    (hs : ¬(0xD800 ≤ c ∧ c ≤ 0xDFFF)) :
    utf8EncodeChar c = [0xE0 + c / 4096, 0x80 + c / 64 % 64, 0x80 + c % 64] := by
  unfold utf8EncodeChar
  rw [if_neg (by omega), if_neg (by omega), if_pos h2, if_neg hs]

/-- Shape of the encoder on four-byte code points. -/
theorem utf8EncodeChar_d (c : Nat) (h1 : 0x10000 ≤ c) (h2 : c < 0x110000) :
    utf8EncodeChar c =
      [0xF0 + c / 262144, 0x80 + c / 4096 % 64, 0x80 + c / 64 % 64, 0x80 + c % 64] := by
  unfold utf8EncodeChar
  rw [if_neg (by omega), if_neg (by omega), if_neg (by omega)]

/-- The decode step consumes a one-byte encoding and emits its code point. -/
theorem utf8Step_a (c : Nat) (h : c < 0x80) (rest : List Nat) :
    utf8Step c rest = (c, 1) := by
  simp only [utf8Step]
  rw [if_pos h]

/-- The decode step consumes a two-byte encoding and emits its code point. -/
theorem utf8Step_b (c : Nat) (h1 : 0x80 ≤ c) (h2 : c < 0x800) (rest : List Nat) :
    utf8Step (0xC0 + c / 64) ((0x80 + c % 64) :: rest) = (c, 2) := by
  simp only [utf8Step]
  rw [if_neg (by omega), if_neg (by omega), if_pos (by omega),
    if_pos (by omega : 0x80 ≤ 0x80 + c % 64 ∧ 0x80 + c % 64 < 0xC0)]
  have hval : (0xC0 + c / 64 - 0xC0) * 64 + (0x80 + c % 64 - 0x80) = c := by omega
  rw [hval]

/-- The decode step consumes a three-byte encoding and emits its code
point. -/
theorem utf8Step_c (c : Nat) (h1 : 0x800 ≤ c) (h2 : c < 0x10000)
    (hs : ¬(0xD800 ≤ c ∧ c ≤ 0xDFFF)) (rest : List Nat) :
    utf8Step (0xE0 + c / 4096) ((0x80 + c / 64 % 64) :: (0x80 + c % 64) :: rest) =
      (c, 3) := by
  simp only [utf8Step]
  rw [if_neg (by omega), if_neg (by omega), if_neg (by omega), if_pos (by omega)]
  have hb1 : (if 0xE0 + c / 4096 = 0xE0 then 0xA0 else 0x80) ≤ 0x80 + c / 64 % 64 ∧
      0x80 + c / 64 % 64 ≤ (if 0xE0 + c / 4096 = 0xED then 0x9F else 0xBF) := by
    constructor
    · split_ifs with he
      · omega
      · omega
    · split_ifs with he
      · omega
      · omega
  rw [if_pos hb1, if_pos (by omega : 0x80 ≤ 0x80 + c % 64 ∧ 0x80 + c % 64 < 0xC0)]
  have hval : (0xE0 + c / 4096 - 0xE0) * 4096 + (0x80 + c / 64 % 64 - 0x80) * 64 +
      (0x80 + c % 64 - 0x80) = c := by omega
  rw [hval]

/-- The decode step consumes a four-byte encoding and emits its code point. -/
theorem utf8Step_d (c : Nat) (h1 : 0x10000 ≤ c) (h2 : c < 0x110000) (rest : List Nat) :
    utf8Step (0xF0 + c / 262144)
      ((0x80 + c / 4096 % 64) :: (0x80 + c / 64 % 64) :: (0x80 + c % 64) :: rest) =
      (c, 4) := by
  simp only [utf8Step]
  rw [if_neg (by omega), if_neg (by omega), if_neg (by omega), if_neg (by omega),
    if_pos (by omega)]
  have hb1 : (if 0xF0 + c / 262144 = 0xF0 then 0x90 else 0x80) ≤ 0x80 + c / 4096 % 64 ∧
      0x80 + c / 4096 % 64 ≤ (if 0xF0 + c / 262144 = 0xF4 then 0x8F else 0xBF) := by
    constructor
    · split_ifs with he
      · omega
      · omega
    · split_ifs with he
      · omega
      · omega
  rw [if_pos hb1, if_pos (by omega : 0x80 ≤ 0x80 + c / 64 % 64 ∧ 0x80 + c / 64 % 64 < 0xC0),
    if_pos (by omega : 0x80 ≤ 0x80 + c % 64 ∧ 0x80 + c % 64 < 0xC0)]
  have hval : (0xF0 + c / 262144 - 0xF0) * 262144 + (0x80 + c / 4096 % 64 - 0x80) * 4096 +
      (0x80 + c / 64 % 64 - 0x80) * 64 + (0x80 + c % 64 - 0x80) = c := by omega
  rw [hval]

/-- The decoding loop is independent of the fuel once the fuel covers the
byte count. -/
theorem utf8DecodeGo_fuel : ∀ (f g : Nat) (s : List Nat),
    s.length ≤ f → s.length ≤ g → utf8DecodeGo f s = utf8DecodeGo g s := by
  intro f
  induction f with
  | zero =>
    intro g s hf _
    have : s = [] := by
      cases s with
      | nil => rfl
      | cons b bs => simp at hf
    subst this
    cases g <;> rfl
  | succ f ih =>
    intro g s hf hg
    cases s with
    | nil => cases g <;> rfl
    | cons b bs =>
      obtain ⟨g2, hg2⟩ : ∃ g2, g = g2 + 1 := by
        cases g with
        | zero => simp at hg
        | succ g2 => exact ⟨g2, rfl⟩
      subst hg2
      show (utf8Step b bs).1 :: utf8DecodeGo f (bs.drop ((utf8Step b bs).2 - 1)) =
        (utf8Step b bs).1 :: utf8DecodeGo g2 (bs.drop ((utf8Step b bs).2 - 1))
      have hlen : (bs.drop ((utf8Step b bs).2 - 1)).length ≤ bs.length := by
        rw [List.length_drop]
        omega
      rw [ih g2 _ (by simp at hf; omega) (by simp at hg; omega)]

/-- The replacement-mode decoder maps the encoding of one scalar value
followed by further bytes to the scalar value followed by their decoding. -/
theorem utf8DecodeGo_enc (c : Nat) (hc : ScalarChar c) (rest : List Nat)
    (f : Nat) (hf : (utf8EncodeChar c ++ rest).length ≤ f + 1) :
    utf8DecodeGo (f + 1) (utf8EncodeChar c ++ rest) =
      c :: utf8DecodeGo (f + 1 - (utf8EncodeChar c).length) rest := by
  obtain ⟨hc1, hc2⟩ := hc
  rcases Nat.lt_or_ge c 0x80 with h | h
  · rw [utf8EncodeChar_a c h] at hf ⊢
    show (utf8Step c rest).1 :: utf8DecodeGo f (rest.drop ((utf8Step c rest).2 - 1)) = _
    rw [utf8Step_a c h rest]
    simp only [List.length_cons, List.length_nil]
    rw [show f + 1 - 1 = f by omega]
    simp
  · rcases Nat.lt_or_ge c 0x800 with h2 | h2
    · rw [utf8EncodeChar_b c h h2] at hf ⊢
      show (utf8Step (0xC0 + c / 64) ((0x80 + c % 64) :: rest)).1 ::
        utf8DecodeGo f (((0x80 + c % 64) :: rest).drop
          ((utf8Step (0xC0 + c / 64) ((0x80 + c % 64) :: rest)).2 - 1)) = _
      rw [utf8Step_b c h h2 rest]
      simp only [List.length_cons, List.length_nil]
      rw [show f + 1 - 2 = f - 1 by omega]
      simp only [List.drop_succ_cons, List.drop_zero]
      congr 1
      apply utf8DecodeGo_fuel
      · simp at hf
        omega
      · simp at hf
        omega
    · rcases Nat.lt_or_ge c 0x10000 with h3 | h3
      · rw [utf8EncodeChar_c c h2 h3 hc2] at hf ⊢
        show (utf8Step (0xE0 + c / 4096)
            ((0x80 + c / 64 % 64) :: (0x80 + c % 64) :: rest)).1 ::
          utf8DecodeGo f (((0x80 + c / 64 % 64) :: (0x80 + c % 64) :: rest).drop
            ((utf8Step (0xE0 + c / 4096)
              ((0x80 + c / 64 % 64) :: (0x80 + c % 64) :: rest)).2 - 1)) = _
        rw [utf8Step_c c h2 h3 hc2 rest]
        simp only [List.length_cons, List.length_nil]
        rw [show f + 1 - 3 = f - 2 by omega]
        simp only [List.drop_succ_cons, List.drop_zero]
        congr 1
        apply utf8DecodeGo_fuel
        · simp at hf
          omega
        · simp at hf
          omega
      · rw [utf8EncodeChar_d c h3 hc1] at hf ⊢
        show (utf8Step (0xF0 + c / 262144)
            ((0x80 + c / 4096 % 64) :: (0x80 + c / 64 % 64) :: (0x80 + c % 64) :: rest)).1 ::
          utf8DecodeGo f
            (((0x80 + c / 4096 % 64) :: (0x80 + c / 64 % 64) :: (0x80 + c % 64) :: rest).drop
              ((utf8Step (0xF0 + c / 262144)
                ((0x80 + c / 4096 % 64) :: (0x80 + c / 64 % 64) :: (0x80 + c % 64) :: rest)).2 - 1)) = _
        rw [utf8Step_d c h3 hc1 rest]
        simp only [List.length_cons, List.length_nil]
        rw [show f + 1 - 4 = f - 3 by omega]
        simp only [List.drop_succ_cons, List.drop_zero]
        congr 1
        apply utf8DecodeGo_fuel
        · simp at hf
          omega
        · simp at hf
          omega

/-- Decoding inverts encoding on Unicode text. -/
theorem utf8_roundtrip (t : List Nat) (h : ValidText t) :
    utf8DecodeNF (utf8Encode t) = t := by
  suffices hgen : ∀ t : List Nat, ValidText t → ∀ f, (utf8Encode t).length ≤ f →
      utf8DecodeGo f (utf8Encode t) = t by
    exact hgen t h _ (le_refl _)
  intro t
  induction t with
  | nil =>
    intro _ f _
    cases f <;> rfl
  | cons c t2 ih =>
    intro hv f hfl
    have hshape : utf8Encode (c :: t2) = utf8EncodeChar c ++ utf8Encode t2 := rfl
    rw [hshape] at hfl ⊢
    obtain ⟨f2, hf2⟩ : ∃ f2, f = f2 + 1 := by
      have : 1 ≤ (utf8EncodeChar c ++ utf8Encode t2).length := by
        have := utf8EncodeChar_ne_nil c
        cases hcc : utf8EncodeChar c with
        | nil => exact absurd hcc this
        | cons x xs => simp [hcc]
      cases f with
      | zero => omega
      | succ f2 => exact ⟨f2, rfl⟩
    subst hf2
    rw [utf8DecodeGo_enc c (hv c (by simp)) (utf8Encode t2) f2 hfl]
    congr 1
    have hle : (utf8Encode t2).length ≤ f2 + 1 - (utf8EncodeChar c).length := by
      rw [List.length_append] at hfl
      have : 1 ≤ (utf8EncodeChar c).length := by
        cases hcc : utf8EncodeChar c with
        | nil => exact absurd hcc (utf8EncodeChar_ne_nil c)
        | cons x xs => simp
      omega
    rw [utf8DecodeGo_fuel _ (utf8Encode t2).length _ hle (le_refl _)]
    exact ih (fun x hx => hv x (by simp [hx])) _ (le_refl _)

/-- Filtering a join with a rejected separator character keeps exactly the
concatenation of the parts, when every part character is kept. -/
theorem filter_joinSep (p : Nat → Bool) (s0 : Nat) (hs0 : p s0 = false) :
    ∀ parts : List (List Nat), (∀ w ∈ parts, ∀ c ∈ w, p c = true) →
    (joinSep [s0] parts).filter p = parts.flatten := by
  intro parts
  induction parts with
  | nil => intro _; rfl
  | cons x rest ih =>
    intro hall
    cases rest with
    | nil =>
      show x.filter p = x ++ ([] : List (List Nat)).flatten
      rw [List.filter_eq_self.mpr (hall x (by simp))]
      simp
    | cons y r2 =>
      show (x ++ [s0] ++ joinSep [s0] (y :: r2)).filter p = _
      rw [List.filter_append, List.filter_append,
        List.filter_eq_self.mpr (hall x (by simp)),
        ih (fun w hw => hall w (by simp [List.mem_cons] at hw ⊢; tauto))]
      simp [hs0]

/-- The concatenated hex pairs have even length. -/
theorem flatten_pairs_length (up : Bool) : ∀ bytes : List Nat,
    ((bytes.map (hexPair up)).flatten).length = 2 * bytes.length := by
  intro bytes
  induction bytes with
  | nil => rfl
  | cons b rest ih =>
    show (hexPair up b ++ (rest.map (hexPair up)).flatten).length = _
    rw [List.length_append, ih]
    simp [hexPair]
    omega

/-- The hex digit value function inverts the hex digit character of a digit
below sixteen, in either case. -/
theorem hexValD_hexDig (up : Bool) (d : Nat) (h : d < 16) :
    hexValD (hexDigChar up d) = d := by
  unfold hexValD hexVal? hexDigChar
  split_ifs <;> simp_all <;> omega

/-- Parsing consecutive digit pairs inverts the hex pair rendering. -/
theorem hexPairsToBytes_flat (up : Bool) : ∀ bytes : List Nat,
    (∀ b ∈ bytes, b < 256) →
    hexPairsToBytes ((bytes.map (hexPair up)).flatten) = bytes := by
  intro bytes
  induction bytes with
  | nil => intro _; rfl
  | cons b rest ih =>
    intro hall
    show hexPairsToBytes (hexPair up b ++ (rest.map (hexPair up)).flatten) = b :: rest
    show hexPairsToBytes (hexDigChar up (b / 16) :: hexDigChar up (b % 16) ::
      (rest.map (hexPair up)).flatten) = b :: rest
    unfold hexPairsToBytes
    rw [ih (fun x hx => hall x (by simp [hx]))]
    rw [hexValD_hexDig up (b / 16) (by have := hall b (by simp); omega),
      hexValD_hexDig up (b % 16) (by omega)]
    have : b / 16 * 16 + b % 16 = b := by omega
    rw [this]

/-- Round-trip of the hex transducers at the default delimiter and group
size, either case flag. -/
theorem hex_roundtrip (t : List Nat) (up : Bool) (h : ValidText t) :
    hexToText (textToHex t [32] up 1) = t := by
  have hjs : JsText t := fun c hc => (h c hc).1
  rw [textToHex_lit t 32 up hjs (by decide) (by decide)]
  have hfil : (joinSep [32] ((utf8Encode t).map (hexPair up))).filter isHexDigitC =
      ((utf8Encode t).map (hexPair up)).flatten := by
    apply filter_joinSep isHexDigitC 32 (by decide)
    intro w hw c hc
    simp only [List.mem_map] at hw
    obtain ⟨b, hb, hwb⟩ := hw
    subst hwb
    exact hexPair_isHex up b (utf8Encode_lt_256 t hjs b hb) c hc
  show (let cleaned := (joinSep [32] ((utf8Encode t).map (hexPair up))).filter isHexDigitC;
    if cleaned.length % 2 ≠ 0 then codes ("Invalid hex length")
    else utf8DecodeNF (hexPairsToBytes cleaned)) = t
  rw [hfil]
  simp only
  rw [if_neg (by rw [flatten_pairs_length]; omega)]
  rw [hexPairsToBytes_flat up (utf8Encode t) (utf8Encode_lt_256 t hjs)]
  exact utf8_roundtrip t h

/-!  URL round-trip. -/

/-- The hex digit value function inverts the uppercase hex digit
character. -/
theorem hexVal?_hexUpDig (d : Nat) (h : d < 16) : hexVal? (hexUpDig d) = some d := by
  unfold hexVal? hexUpDig
  split_ifs <;> simp_all <;> omega

set_option maxRecDepth 10000 in
/-- Strict one-character decode of a two-byte encoding. -/
theorem utf8DecodeOne_b (c : Nat) (h1 : 0x80 ≤ c) (h2 : c < 0x800) :
    utf8DecodeOne [0xC0 + c / 64, 0x80 + c % 64] = some c := by
  simp only [utf8DecodeOne]
  rw [if_pos (by omega)]
  congr 1
  omega

set_option maxRecDepth 10000 in
/-- Strict one-character decode of a three-byte encoding. -/
theorem utf8DecodeOne_c (c : Nat) (h1 : 0x800 ≤ c) (h2 : c < 0x10000)
    (hs : ¬(0xD800 ≤ c ∧ c ≤ 0xDFFF)) :
    utf8DecodeOne [0xE0 + c / 4096, 0x80 + c / 64 % 64, 0x80 + c % 64] = some c := by
  simp only [utf8DecodeOne]
  rw [if_pos (by omega)]
  rw [if_pos (by constructor <;> omega)]
  congr 1
  omega

set_option maxRecDepth 10000 in
/-- Strict one-character decode of a four-byte encoding. -/
theorem utf8DecodeOne_d (c : Nat) (h1 : 0x10000 ≤ c) (h2 : c < 0x110000) :
    utf8DecodeOne [0xF0 + c / 262144, 0x80 + c / 4096 % 64, 0x80 + c / 64 % 64,
      0x80 + c % 64] = some c := by
  simp only [utf8DecodeOne]
  rw [if_pos (by omega)]
  rw [if_pos (by constructor <;> omega)]
  congr 1
  omega

/-- The decode step passes a non-percent character through. -/
theorem uriStep_lit (c : Nat) (h : ¬(c = 37)) (rest : List Nat) :
    uriDecStep c rest = some (c, 1) := by
  unfold uriDecStep
  rw [if_neg h]

/-- The decode step reads one escape of a byte below 0x80. -/
theorem uriStep_esc1 (B : Nat) (hB : B < 0x80) (r1 : List Nat) :
    uriDecStep 37 (hexUpDig (B / 16) :: hexUpDig (B % 16) :: r1) = some (B, 3) := by
  have h1 := hexVal?_hexUpDig (B / 16) (by omega)
  have h2 := hexVal?_hexUpDig (B % 16) (by omega)
  have hBB : B / 16 * 16 + B % 16 = B := by omega
  simp only [uriDecStep, h1, h2, hBB]
  rw [if_pos trivial, if_pos hB]

/-- The decode step reads two escapes for a two-byte lead. -/
theorem uriStep_esc2 (B b1 : Nat) (hB : 0xC2 ≤ B ∧ B < 0xE0) (hb1 : b1 < 256)
    (r : List Nat) :
    uriDecStep 37 (hexUpDig (B / 16) :: hexUpDig (B % 16) :: 37 ::
      hexUpDig (b1 / 16) :: hexUpDig (b1 % 16) :: r) =
      (utf8DecodeOne [B, b1]).map (fun cp => (cp, 6)) := by
  have h1 := hexVal?_hexUpDig (B / 16) (by omega)
  have h2 := hexVal?_hexUpDig (B % 16) (by omega)
  have h3 := hexVal?_hexUpDig (b1 / 16) (by omega)
  have h4 := hexVal?_hexUpDig (b1 % 16) (by omega)
  have hBB : B / 16 * 16 + B % 16 = B := by omega
  have hb1e : b1 / 16 * 16 + b1 % 16 = b1 := by omega
  simp only [uriDecStep, h1, h2, h3, h4, hBB, hb1e]
  rw [if_pos trivial, if_neg (by omega), if_neg (by omega), if_pos (by omega)]

/-- The decode step reads three escapes for a three-byte lead. -/
theorem uriStep_esc3 (B b1 b2 : Nat) (hB : 0xE0 ≤ B ∧ B < 0xF0) (hb1 : b1 < 256)
    (hb2 : b2 < 256) (r : List Nat) :
    uriDecStep 37 (hexUpDig (B / 16) :: hexUpDig (B % 16) :: 37 ::
      hexUpDig (b1 / 16) :: hexUpDig (b1 % 16) :: 37 ::
      hexUpDig (b2 / 16) :: hexUpDig (b2 % 16) :: r) =
      (utf8DecodeOne [B, b1, b2]).map (fun cp => (cp, 9)) := by
  have h1 := hexVal?_hexUpDig (B / 16) (by omega)
  have h2 := hexVal?_hexUpDig (B % 16) (by omega)
  have h3 := hexVal?_hexUpDig (b1 / 16) (by omega)
  have h4 := hexVal?_hexUpDig (b1 % 16) (by omega)
  have h5 := hexVal?_hexUpDig (b2 / 16) (by omega)
  have h6 := hexVal?_hexUpDig (b2 % 16) (by omega)
  have hBB : B / 16 * 16 + B % 16 = B := by omega
  have hb1e : b1 / 16 * 16 + b1 % 16 = b1 := by omega
  have hb2e : b2 / 16 * 16 + b2 % 16 = b2 := by omega
  simp only [uriDecStep, h1, h2, h3, h4, h5, h6, hBB, hb1e, hb2e]
  rw [if_pos trivial, if_neg (by omega), if_neg (by omega), if_neg (by omega),
    if_pos (by omega)]

/-- The decode step reads four escapes for a four-byte lead. -/
theorem uriStep_esc4 (B b1 b2 b3 : Nat) (hB : 0xF0 ≤ B ∧ B < 0xF8) (hb1 : b1 < 256)
    (hb2 : b2 < 256) (hb3 : b3 < 256) (r : List Nat) :
    uriDecStep 37 (hexUpDig (B / 16) :: hexUpDig (B % 16) :: 37 ::
      hexUpDig (b1 / 16) :: hexUpDig (b1 % 16) :: 37 ::
      hexUpDig (b2 / 16) :: hexUpDig (b2 % 16) :: 37 ::
      hexUpDig (b3 / 16) :: hexUpDig (b3 % 16) :: r) =
      (utf8DecodeOne [B, b1, b2, b3]).map (fun cp => (cp, 12)) := by
  have h1 := hexVal?_hexUpDig (B / 16) (by omega)
  have h2 := hexVal?_hexUpDig (B % 16) (by omega)
  have h3 := hexVal?_hexUpDig (b1 / 16) (by omega)
  have h4 := hexVal?_hexUpDig (b1 % 16) (by omega)
  have h5 := hexVal?_hexUpDig (b2 / 16) (by omega)
  have h6 := hexVal?_hexUpDig (b2 % 16) (by omega)
  have h7 := hexVal?_hexUpDig (b3 / 16) (by omega)
  have h8 := hexVal?_hexUpDig (b3 % 16) (by omega)
  have hBB : B / 16 * 16 + B % 16 = B := by omega
  have hb1e : b1 / 16 * 16 + b1 % 16 = b1 := by omega
  have hb2e : b2 / 16 * 16 + b2 % 16 = b2 := by omega
  have hb3e : b3 / 16 * 16 + b3 % 16 = b3 := by omega
  simp only [uriDecStep, h1, h2, h3, h4, h5, h6, h7, h8, hBB, hb1e, hb2e, hb3e]
  rw [if_pos trivial, if_neg (by omega), if_neg (by omega), if_neg (by omega),
    if_neg (by omega), if_pos (by omega)]

/-- The URI decoding loop is independent of the fuel once the fuel covers
the character count. -/
theorem uriDecGo_fuel : ∀ (f g : Nat) (s : List Nat),
    s.length ≤ f → s.length ≤ g → uriDecGo f s = uriDecGo g s := by
  intro f
  induction f with
  | zero =>
    intro g s hf _
    have : s = [] := by
      cases s with
      | nil => rfl
      | cons b bs => simp at hf
    subst this
    cases g <;> rfl
  | succ f ih =>
    intro g s hf hg
    cases s with
    | nil => cases g <;> rfl
    | cons c rest =>
      obtain ⟨g2, hg2⟩ : ∃ g2, g = g2 + 1 := by
        cases g with
        | zero => simp at hg
        | succ g2 => exact ⟨g2, rfl⟩
      subst hg2
      cases hstep : uriDecStep c rest with
      | none =>
        show (match uriDecStep c rest with
          | none => none
          | some (cp, k) =>
            match uriDecGo f (rest.drop (k - 1)) with
            | none => none
            | some t => some (cp :: t)) =
          (match uriDecStep c rest with
          | none => none
          | some (cp, k) =>
            match uriDecGo g2 (rest.drop (k - 1)) with
            | none => none
            | some t => some (cp :: t))
        rw [hstep]
      | some v =>
        obtain ⟨cp, k⟩ := v
        show (match uriDecStep c rest with
          | none => none
          | some (cp, k) =>
            match uriDecGo f (rest.drop (k - 1)) with
            | none => none
            | some t => some (cp :: t)) =
          (match uriDecStep c rest with
          | none => none
          | some (cp, k) =>
            match uriDecGo g2 (rest.drop (k - 1)) with
            | none => none
            | some t => some (cp :: t))
        rw [hstep]
        show (match uriDecGo f (rest.drop (k - 1)) with
          | none => none
          | some t => some (cp :: t)) =
          (match uriDecGo g2 (rest.drop (k - 1)) with
          | none => none
          | some t => some (cp :: t))
        rw [ih g2 (rest.drop (k - 1))
          (by rw [List.length_drop]; simp at hf; omega)
          (by rw [List.length_drop]; simp at hg; omega)]

/-- Rewriting of the inner option match of the loop as a map. -/
theorem optionMatch_cons (o : Option (List Nat)) (c : Nat) :
    (match o with
      | none => none
      | some t => some (c :: t)) = o.map (fun t => c :: t) := by
  cases o <;> rfl

/-- The escapes of one non-unreserved scalar value, as produced by
encodeURIComponent on the UTF-8 bytes. -/
theorem encURIChar_esc (c : Nat) (h : uriUnreserved c = false) :
    encURIChar c = (utf8EncodeChar c).flatMap pctByte := by
  unfold encURIChar
  rw [if_neg (by simp [h])]

/-- One successful step of the URI decoding loop. -/
theorem uriDecGo_step (f : Nat) (c : Nat) (rest : List Nat) (cp k : Nat)
    (h : uriDecStep c rest = some (cp, k)) :
    uriDecGo (f + 1) (c :: rest) =
      (uriDecGo f (rest.drop (k - 1))).map (fun t => cp :: t) := by
  show (match uriDecStep c rest with
    | none => none
    | some (cp, k) =>
      match uriDecGo f (rest.drop (k - 1)) with
      | none => none
      | some t => some (cp :: t)) = _
  rw [h]
  exact optionMatch_cons _ cp

/-- The URI decoding loop maps the escapes of one scalar value followed by
further characters to the scalar value followed by their decoding. -/
theorem uriDecGo_enc (c : Nat) (hc : ScalarChar c) (E : List Nat)
    (f : Nat) (hf : (encURIChar c ++ E).length ≤ f + 1) :
    uriDecGo (f + 1) (encURIChar c ++ E) =
      (uriDecGo E.length E).map (fun t => c :: t) := by
  obtain ⟨hc1, hc2⟩ := hc
  by_cases hu : uriUnreserved c = true
  · have hne : ¬(c = 37) := by
      intro he
      subst he
      exact absurd hu (by decide)
    have hshape : encURIChar c = [c] := by
      unfold encURIChar
      rw [if_pos hu]
    rw [hshape] at hf ⊢
    rw [show ([c] ++ E) = c :: E from rfl] at hf ⊢
    rw [uriDecGo_step f c E c 1 (uriStep_lit c hne E)]
    rw [show E.drop (1 - 1) = E from rfl]
    congr 1
    exact uriDecGo_fuel f E.length E (by simp at hf; omega) (le_refl _)
  · have hu2 : uriUnreserved c = false := by
      cases hq : uriUnreserved c
      · rfl
      · exact absurd hq hu
    rw [encURIChar_esc c hu2] at hf ⊢
    rcases Nat.lt_or_ge c 0x80 with h | h
    · rw [utf8EncodeChar_a c h] at hf ⊢
      have hsh : ([c].flatMap pctByte) ++ E =
          37 :: (hexUpDig (c / 16) :: hexUpDig (c % 16) :: E) := by
        simp [pctByte]
      rw [hsh] at hf ⊢
      rw [uriDecGo_step f 37 _ c 3 (uriStep_esc1 c h E)]
      rw [show (hexUpDig (c / 16) :: hexUpDig (c % 16) :: E).drop (3 - 1) = E from rfl]
      congr 1
      exact uriDecGo_fuel f E.length E (by simp at hf; omega) (le_refl _)
    · rcases Nat.lt_or_ge c 0x800 with h2 | h2
      · rw [utf8EncodeChar_b c h h2] at hf ⊢
        have hsh : ([0xC0 + c / 64, 0x80 + c % 64].flatMap pctByte) ++ E =
            37 :: (hexUpDig ((0xC0 + c / 64) / 16) :: hexUpDig ((0xC0 + c / 64) % 16) ::
              37 :: hexUpDig ((0x80 + c % 64) / 16) :: hexUpDig ((0x80 + c % 64) % 16) :: E) := by
          simp [pctByte]
        rw [hsh] at hf ⊢
        have hstep := uriStep_esc2 (0xC0 + c / 64) (0x80 + c % 64)
          (by omega) (by omega) E
        rw [utf8DecodeOne_b c h h2] at hstep
        rw [uriDecGo_step f 37 _ c 6 hstep]
        rw [show (hexUpDig ((0xC0 + c / 64) / 16) :: hexUpDig ((0xC0 + c / 64) % 16) ::
          37 :: hexUpDig ((0x80 + c % 64) / 16) :: hexUpDig ((0x80 + c % 64) % 16) :: E).drop
            (6 - 1) = E from rfl]
        congr 1
        exact uriDecGo_fuel f E.length E (by simp at hf; omega) (le_refl _)
      · rcases Nat.lt_or_ge c 0x10000 with h3 | h3
        · rw [utf8EncodeChar_c c h2 h3 hc2] at hf ⊢
          have hsh : ([0xE0 + c / 4096, 0x80 + c / 64 % 64, 0x80 + c % 64].flatMap pctByte) ++ E =
              37 :: (hexUpDig ((0xE0 + c / 4096) / 16) :: hexUpDig ((0xE0 + c / 4096) % 16) ::
                37 :: hexUpDig ((0x80 + c / 64 % 64) / 16) :: hexUpDig ((0x80 + c / 64 % 64) % 16) ::
                37 :: hexUpDig ((0x80 + c % 64) / 16) :: hexUpDig ((0x80 + c % 64) % 16) :: E) := by
            simp [pctByte]
          rw [hsh] at hf ⊢
          have hstep := uriStep_esc3 (0xE0 + c / 4096) (0x80 + c / 64 % 64) (0x80 + c % 64)
            (by omega) (by omega) (by omega) E
          rw [utf8DecodeOne_c c h2 h3 hc2] at hstep
          rw [uriDecGo_step f 37 _ c 9 hstep]
          rw [show (hexUpDig ((0xE0 + c / 4096) / 16) :: hexUpDig ((0xE0 + c / 4096) % 16) ::
            37 :: hexUpDig ((0x80 + c / 64 % 64) / 16) :: hexUpDig ((0x80 + c / 64 % 64) % 16) ::
            37 :: hexUpDig ((0x80 + c % 64) / 16) :: hexUpDig ((0x80 + c % 64) % 16) :: E).drop
              (9 - 1) = E from rfl]
          congr 1
          exact uriDecGo_fuel f E.length E (by simp at hf; omega) (le_refl _)
        · rw [utf8EncodeChar_d c h3 hc1] at hf ⊢
          have hsh : ([0xF0 + c / 262144, 0x80 + c / 4096 % 64, 0x80 + c / 64 % 64,
              0x80 + c % 64].flatMap pctByte) ++ E =
              37 :: (hexUpDig ((0xF0 + c / 262144) / 16) :: hexUpDig ((0xF0 + c / 262144) % 16) ::
                37 :: hexUpDig ((0x80 + c / 4096 % 64) / 16) :: hexUpDig ((0x80 + c / 4096 % 64) % 16) ::
                37 :: hexUpDig ((0x80 + c / 64 % 64) / 16) :: hexUpDig ((0x80 + c / 64 % 64) % 16) ::
                37 :: hexUpDig ((0x80 + c % 64) / 16) :: hexUpDig ((0x80 + c % 64) % 16) :: E) := by
            simp [pctByte]
          rw [hsh] at hf ⊢
          have hstep := uriStep_esc4 (0xF0 + c / 262144) (0x80 + c / 4096 % 64)
            (0x80 + c / 64 % 64) (0x80 + c % 64)
            (by omega) (by omega) (by omega) (by omega) E
          rw [utf8DecodeOne_d c h3 hc1] at hstep
          rw [uriDecGo_step f 37 _ c 12 hstep]
          rw [show (hexUpDig ((0xF0 + c / 262144) / 16) :: hexUpDig ((0xF0 + c / 262144) % 16) ::
            37 :: hexUpDig ((0x80 + c / 4096 % 64) / 16) :: hexUpDig ((0x80 + c / 4096 % 64) % 16) ::
            37 :: hexUpDig ((0x80 + c / 64 % 64) / 16) :: hexUpDig ((0x80 + c / 64 % 64) % 16) ::
            37 :: hexUpDig ((0x80 + c % 64) / 16) :: hexUpDig ((0x80 + c % 64) % 16) :: E).drop
              (12 - 1) = E from rfl]
          congr 1
          exact uriDecGo_fuel f E.length E (by simp at hf; omega) (le_refl _)

/-- The escapes of one code point are never empty. -/
theorem encURIChar_ne_nil (c : Nat) : encURIChar c ≠ [] := by
  unfold encURIChar
  split_ifs with h
  · simp
  · cases hcc : utf8EncodeChar c with
    | nil => exact absurd hcc (utf8EncodeChar_ne_nil c)
    | cons b bs =>
      show pctByte b ++ bs.flatMap pctByte ≠ []
      simp [pctByte]

/-- encodeURIComponent succeeds on surrogate-free text, producing the
concatenated per-character escapes. -/
theorem encURI_flat : ∀ t : List Nat, (∀ c ∈ t, ¬(0xD800 ≤ c ∧ c ≤ 0xDFFF)) →
    encodeURIComponentJs t = some ((t.map encURIChar).flatten) := by
  intro t
  induction t with
  | nil => intro _; rfl
  | cons c rest ih =>
    intro h
    show (if 0xD800 ≤ c ∧ c ≤ 0xDFFF then none
      else
        match encodeURIComponentJs rest with
        | none => none
        | some r => some (encURIChar c ++ r)) = _
    rw [if_neg (h c (by simp)), ih (fun x hx => h x (by simp [hx]))]
    rfl

/-- The URI decoding loop inverts the concatenated escapes of Unicode
text. -/
theorem uriDecGo_flat : ∀ t : List Nat, ValidText t →
    ∀ f, ((t.map encURIChar).flatten).length ≤ f →
    uriDecGo f ((t.map encURIChar).flatten) = some t := by
  intro t
  induction t with
  | nil =>
    intro _ f _
    cases f <;> rfl
  | cons c t2 ih =>
    intro hv f hf
    have hshape : ((c :: t2).map encURIChar).flatten =
        encURIChar c ++ (t2.map encURIChar).flatten := rfl
    rw [hshape] at hf ⊢
    obtain ⟨f2, hf2⟩ : ∃ f2, f = f2 + 1 := by
      have h1 : 1 ≤ (encURIChar c ++ (t2.map encURIChar).flatten).length := by
        cases hcc : encURIChar c with
        | nil => exact absurd hcc (encURIChar_ne_nil c)
        | cons x xs => simp [hcc]
      cases f with
      | zero => omega
      | succ f2 => exact ⟨f2, rfl⟩
    subst hf2
    rw [uriDecGo_enc c (hv c (by simp)) _ f2 hf]
    rw [ih (fun x hx => hv x (by simp [hx])) _ (le_refl _)]
    rfl

/-- Round-trip of the URL transducers: encoding succeeds on Unicode text and
decoding the result returns the text. -/
theorem url_roundtrip (t : List Nat) (h : ValidText t) :
    (urlEncode t).map urlDecode = some t := by
  have hns : ∀ c ∈ t, ¬(0xD800 ≤ c ∧ c ≤ 0xDFFF) := fun c hc => (h c hc).2
  show (encodeURIComponentJs t).map urlDecode = some t
  rw [encURI_flat t hns]
  show some (urlDecode ((t.map encURIChar).flatten)) = some t
  have hdec : decodeURIComponentJs ((t.map encURIChar).flatten) = some t :=
    uriDecGo_flat t h _ (le_refl _)
  unfold urlDecode
  rw [hdec]

/-!  Round trip of the Base64 transducers. -/

/-- The unescape loop gives the same value under any sufficient fuel. -/
theorem unescGo_fuel : ∀ (f g : Nat) (s : List Nat),
    s.length ≤ f → s.length ≤ g → unescGo f s = unescGo g s := by
  intro f
  induction f with
  | zero =>
    intro g s hf _
    cases s with
    | nil => cases g <;> rfl
    | cons c r => simp at hf
  | succ f ih =>
    intro g s hf hg
    cases s with
    | nil => cases g <;> rfl
    | cons c r =>
      cases g with
      | zero => simp at hg
      | succ g2 =>
        show (unescStep c r).1 :: unescGo f (r.drop ((unescStep c r).2 - 1)) =
          (unescStep c r).1 :: unescGo g2 (r.drop ((unescStep c r).2 - 1))
        congr 1
        apply ih
        · rw [List.length_drop]; simp at hf; omega
        · rw [List.length_drop]; simp at hg; omega

/-- One step of the unescape loop, by definition. -/
theorem unescGo_step (f : Nat) (c : Nat) (rest : List Nat) :
    unescGo (f + 1) (c :: rest) =
      (unescStep c rest).1 :: unescGo f (rest.drop ((unescStep c rest).2 - 1)) := rfl

/-- A character other than percent passes the unescape step literally. -/
theorem unescStep_lit (c : Nat) (h : ¬(c = 37)) (rest : List Nat) :
    unescStep c rest = (c, 1) := by
  unfold unescStep
  rw [if_neg h]

/-- The unescape step turns a two-digit percent escape of a byte into the
byte, consuming three characters, whatever follows. -/
theorem unescStep_pct (b : Nat) (hb : b < 256) (X : List Nat) :
    unescStep 37 (hexUpDig (b / 16) :: hexUpDig (b % 16) :: X) = (b, 3) := by
  have hu : ¬(hexUpDig (b / 16) = 117) := by
    unfold hexUpDig; split_ifs <;> omega
  have hh : hexVal? (hexUpDig (b / 16)) = some (b / 16) :=
    hexVal?_hexUpDig _ (by omega)
  have hl : hexVal? (hexUpDig (b % 16)) = some (b % 16) :=
    hexVal?_hexUpDig _ (by omega)
  have hv : b / 16 * 16 + b % 16 = b := by omega
  rcases X with _ | ⟨x1, _ | ⟨x2, _ | ⟨x3, X⟩⟩⟩ <;>
    simp only [unescStep, if_pos rfl, if_neg hu, hh, hl, hv, if_true]

/-- The unescape loop turns the concatenated percent escapes of a byte list
followed by further characters into the bytes followed by their
unescaping. -/
theorem unescGo_pcts : ∀ bs : List Nat, (∀ b ∈ bs, b < 256) →
    ∀ (X : List Nat) (f : Nat), (bs.flatMap pctByte ++ X).length ≤ f →
    unescGo f (bs.flatMap pctByte ++ X) = bs ++ unescGo X.length X := by
  intro bs
  induction bs with
  | nil =>
    intro _ X f hf
    simp only [List.flatMap_nil, List.nil_append] at hf ⊢
    exact unescGo_fuel f X.length X hf (le_refl _)
  | cons b rest ih =>
    intro hlt X f hf
    have hshape : ((b :: rest).flatMap pctByte) ++ X =
        37 :: (hexUpDig (b / 16) :: hexUpDig (b % 16) :: (rest.flatMap pctByte ++ X)) := by
      simp [pctByte]
    rw [hshape] at hf ⊢
    obtain ⟨f1, hf1⟩ : ∃ f1, f = f1 + 1 := by
      simp at hf
      cases f with
      | zero => omega
      | succ f1 => exact ⟨f1, rfl⟩
    subst hf1
    rw [unescGo_step]
    rw [unescStep_pct b (hlt b (by simp)) (rest.flatMap pctByte ++ X)]
    show b :: unescGo f1 (rest.flatMap pctByte ++ X) = _
    rw [ih (fun x hx => hlt x (by simp [hx])) X f1 (by simp at hf ⊢; omega)]
    rfl

/-- The unreserved characters of encodeURIComponent are ASCII and none is
the percent sign. -/
theorem uriUnreserved_ascii (c : Nat) (h : uriUnreserved c = true) :
    c < 0x80 ∧ ¬(c = 37) := by
  unfold uriUnreserved at h
  simp at h
  omega

/-- The unescape loop maps the encodeURIComponent escapes of one scalar
value followed by further characters to its UTF-8 bytes followed by the
unescaping of the rest. -/
theorem unescGo_encChar (c : Nat) (hc : ScalarChar c) (X : List Nat)
    (f : Nat) (hf : (encURIChar c ++ X).length ≤ f) :
    unescGo f (encURIChar c ++ X) = utf8EncodeChar c ++ unescGo X.length X := by
  by_cases hu : uriUnreserved c = true
  · obtain ⟨hlt, hne⟩ := uriUnreserved_ascii c hu
    have hshape : encURIChar c = [c] := by
      unfold encURIChar
      rw [if_pos hu]
    rw [hshape] at hf ⊢
    rw [show ([c] ++ X) = c :: X from rfl] at hf ⊢
    obtain ⟨f1, hf1⟩ : ∃ f1, f = f1 + 1 := by
      simp at hf
      cases f with
      | zero => omega
      | succ f1 => exact ⟨f1, rfl⟩
    subst hf1
    rw [unescGo_step, unescStep_lit c hne X]
    show c :: unescGo f1 X = _
    rw [utf8EncodeChar_a c hlt]
    rw [unescGo_fuel f1 X.length X (by simp at hf; omega) (le_refl _)]
    rfl
  · have hu2 : uriUnreserved c = false := by
      cases hq : uriUnreserved c
      · rfl
      · exact absurd hq hu
    rw [encURIChar_esc c hu2] at hf ⊢
    exact unescGo_pcts (utf8EncodeChar c) (utf8EncodeChar_lt_256 c hc.1) X f hf

/-- Unescaping the concatenated encodeURIComponent escapes of Unicode text
yields its UTF-8 bytes. -/
theorem unescGo_encFlat : ∀ t : List Nat, ValidText t →
    ∀ f, ((t.map encURIChar).flatten).length ≤ f →
    unescGo f ((t.map encURIChar).flatten) = utf8Encode t := by
  intro t
  induction t with
  | nil =>
    intro _ f _
    cases f <;> rfl
  | cons c t2 ih =>
    intro hv f hf
    have hshape : ((c :: t2).map encURIChar).flatten =
        encURIChar c ++ (t2.map encURIChar).flatten := rfl
    rw [hshape] at hf ⊢
    rw [unescGo_encChar c (hv c (by simp)) _ f hf]
    rw [ih (fun x hx => hv x (by simp [hx])) _ (le_refl _)]
    rfl

/-- The Base64 alphabet index inverts the Base64 alphabet character. -/
theorem b64Idx?_b64Char (i : Nat) (h : i < 64) : b64Idx? (b64Char i) = some i := by
  unfold b64Char b64Idx?
  split_ifs <;>
    first
      | (simp only [Option.some.injEq]; omega)
      | (exfalso; omega)

/-- No Base64 alphabet character is the padding equals sign. -/
theorem b64Char_ne_61 (i : Nat) : b64Char i ≠ 61 := by
  unfold b64Char
  split_ifs <;> omega

/-- No Base64 alphabet character is forgiving-base64 whitespace. -/
theorem b64Char_not_ws (i : Nat) : b64Ws (b64Char i) = false := by
  unfold b64Char b64Ws
  split_ifs <;> simp <;> omega

/-- Every character btoa emits is a Base64 alphabet character or the padding
equals sign. -/
theorem btoaEnc_mem : ∀ bs : List Nat, ∀ x ∈ btoaEnc bs,
    (∃ i, x = b64Char i) ∨ x = 61 := by
  intro bs
  induction bs using btoaEnc.induct with
  | case1 => intro x hx; simp [btoaEnc] at hx
  | case2 a =>
    intro x hx
    simp only [btoaEnc, List.mem_cons, List.not_mem_nil, or_false] at hx
    rcases hx with h | h | h | h
    · exact Or.inl ⟨_, h⟩
    · exact Or.inl ⟨_, h⟩
    · exact Or.inr h
    · exact Or.inr h
  | case3 a b =>
    intro x hx
    simp only [btoaEnc, List.mem_cons, List.not_mem_nil, or_false] at hx
    rcases hx with h | h | h | h
    · exact Or.inl ⟨_, h⟩
    · exact Or.inl ⟨_, h⟩
    · exact Or.inl ⟨_, h⟩
    · exact Or.inr h
  | case4 a b c r ih =>
    intro x hx
    simp only [btoaEnc, List.mem_cons] at hx
    rcases hx with h | h | h | h | h
    · exact Or.inl ⟨_, h⟩
    · exact Or.inl ⟨_, h⟩
    · exact Or.inl ⟨_, h⟩
    · exact Or.inl ⟨_, h⟩
    · exact ih x h

/-- The whitespace filter of forgiving-base64 leaves the output of btoa
unchanged. -/
theorem btoaEnc_filter (bs : List Nat) :
    (btoaEnc bs).filter (fun c => !b64Ws c) = btoaEnc bs := by
  rw [List.filter_eq_self]
  intro x hx
  rcases btoaEnc_mem bs x hx with ⟨i, hi⟩ | h
  · subst hi; simp [b64Char_not_ws]
  · subst h; simp [b64Ws]

/-- The length of the output of btoa is a multiple of four. -/
theorem btoaEnc_len : ∀ bs : List Nat, (btoaEnc bs).length % 4 = 0 := by
  intro bs
  induction bs using btoaEnc.induct with
  | case1 => rfl
  | case2 a => simp [btoaEnc]
  | case3 a b => simp [btoaEnc]
  | case4 a b c r ih => simp only [btoaEnc, List.length_cons]; omega

/-- Padding removal passes over a chunk of four non-padding characters at the
front of a string whose remainder has length a multiple of four. -/
theorem stripPad_chunk (w x y z : Nat) (X : List Nat)
    (hz : z ≠ 61) (hX : X.length % 4 = 0) :
    b64StripPad (w :: x :: y :: z :: X) = w :: x :: y :: z :: b64StripPad X := by
  unfold b64StripPad
  have hlen : (w :: x :: y :: z :: X).length % 4 = 0 := by simp; omega
  rw [if_pos hlen, if_pos hX]
  have hrev : (w :: x :: y :: z :: X).reverse = X.reverse ++ [z, y, x, w] := by
    simp
  rw [hrev]
  rcases hXr : X.reverse with _ | ⟨x1, _ | ⟨x2, xr⟩⟩
  · have hXnil : X = [] := by
      have := congrArg List.reverse hXr
      simpa using this
    subst hXnil
    show (if z = 61 then
        (if y = 61 then ([x, w] : List Nat).reverse else (y :: [x, w]).reverse)
      else w :: x :: y :: z :: []) = w :: x :: y :: z :: []
    rw [if_neg hz]
  · exfalso
    have : X.length = 1 := by
      have := congrArg List.length hXr
      simpa using this
    omega
  · show (if x1 = 61 then
        (if x2 = 61 then (xr ++ [z, y, x, w]).reverse
         else (x2 :: (xr ++ [z, y, x, w])).reverse)
      else w :: x :: y :: z :: X) =
      w :: x :: y :: z :: (if x1 = 61 then
        (if x2 = 61 then xr.reverse else (x2 :: xr).reverse)
      else X)
    by_cases h1 : x1 = 61
    · by_cases h2 : x2 = 61
      · rw [if_pos h1, if_pos h2, if_pos h1, if_pos h2]
        simp
      · rw [if_pos h1, if_neg h2, if_pos h1, if_neg h2]
        simp
    · rw [if_neg h1, if_neg h1]

/-- Padding removal turns the output of btoa into the unpadded Base64
characters. -/
theorem stripPad_btoaEnc : ∀ bs : List Nat,
    b64StripPad (btoaEnc bs) = b64EncCore bs := by
  intro bs
  induction bs using btoaEnc.induct with
  | case1 => rfl
  | case2 a =>
    show b64StripPad [b64Char (a / 4), b64Char (a % 4 * 16), 61, 61] = _
    unfold b64StripPad
    rw [if_pos (by simp)]
    have hrev : ([b64Char (a / 4), b64Char (a % 4 * 16), 61, 61] : List Nat).reverse =
        61 :: 61 :: [b64Char (a % 4 * 16), b64Char (a / 4)] := by simp
    rw [hrev]
    show (if (61:Nat) = 61 then
        (if (61:Nat) = 61 then ([b64Char (a % 4 * 16), b64Char (a / 4)] : List Nat).reverse
         else (61 :: [b64Char (a % 4 * 16), b64Char (a / 4)] : List Nat).reverse)
      else _) = _
    rw [if_pos rfl, if_pos rfl]
    simp [b64EncCore]
  | case3 a b =>
    show b64StripPad [b64Char (a / 4), b64Char (a % 4 * 16 + b / 16),
        b64Char (b % 16 * 4), 61] = _
    unfold b64StripPad
    rw [if_pos (by simp)]
    have hrev : ([b64Char (a / 4), b64Char (a % 4 * 16 + b / 16),
        b64Char (b % 16 * 4), 61] : List Nat).reverse =
        61 :: b64Char (b % 16 * 4) :: [b64Char (a % 4 * 16 + b / 16), b64Char (a / 4)] := by
      simp
    rw [hrev]
    show (if (61:Nat) = 61 then
        (if b64Char (b % 16 * 4) = 61 then
          ([b64Char (a % 4 * 16 + b / 16), b64Char (a / 4)] : List Nat).reverse
         else (b64Char (b % 16 * 4) ::
          [b64Char (a % 4 * 16 + b / 16), b64Char (a / 4)] : List Nat).reverse)
      else _) = _
    rw [if_pos rfl, if_neg (b64Char_ne_61 _)]
    simp [b64EncCore]
  | case4 a b c r ih =>
    show b64StripPad (b64Char (a / 4) :: b64Char (a % 4 * 16 + b / 16) ::
      b64Char (b % 16 * 4 + c / 64) :: b64Char (c % 64) :: btoaEnc r) = _
    rw [stripPad_chunk _ _ _ _ _ (b64Char_ne_61 _) (btoaEnc_len r), ih]
    rfl

/-- The alphabet check of forgiving-base64 preserves length. -/
theorem b64Idxs_length : ∀ (s is : List Nat), b64Idxs s = some is →
    is.length = s.length := by
  intro s
  induction s with
  | nil =>
    intro is h
    simp only [b64Idxs] at h
    cases h
    rfl
  | cons c r ih =>
    intro is h
    simp only [b64Idxs] at h
    cases hc : b64Idx? c with
    | none => rw [hc] at h; cases h
    | some i =>
      rw [hc] at h
      cases hr : b64Idxs r with
      | none => rw [hr] at h; cases h
      | some is2 =>
        rw [hr] at h
        cases h
        simp [ih is2 hr]

/-- On the unpadded Base64 characters of a byte list the alphabet check
succeeds, and the bit-assembly loop recovers the bytes. -/
theorem coreDec : ∀ bs : List Nat, (∀ b ∈ bs, b < 256) →
    ∃ is : List Nat, b64Idxs (b64EncCore bs) = some is ∧ b64DecGo is = bs := by
  intro bs
  induction bs using b64EncCore.induct with
  | case1 => exact fun _ => ⟨[], rfl, rfl⟩
  | case2 a =>
    intro hlt
    have ha : a < 256 := hlt a (by simp)
    refine ⟨[a / 4, a % 4 * 16], ?_, ?_⟩
    · simp only [b64EncCore, b64Idxs,
        b64Idx?_b64Char (a / 4) (by omega), b64Idx?_b64Char (a % 4 * 16) (by omega)]
    · show [a / 4 * 4 + a % 4 * 16 / 16] = [a]
      have : a / 4 * 4 + a % 4 * 16 / 16 = a := by omega
      rw [this]
  | case3 a b =>
    intro hlt
    have ha : a < 256 := hlt a (by simp)
    have hb : b < 256 := hlt b (by simp)
    refine ⟨[a / 4, a % 4 * 16 + b / 16, b % 16 * 4], ?_, ?_⟩
    · simp only [b64EncCore, b64Idxs, b64Idx?_b64Char (a / 4) (by omega),
        b64Idx?_b64Char (a % 4 * 16 + b / 16) (by omega),
        b64Idx?_b64Char (b % 16 * 4) (by omega)]
    · show [a / 4 * 4 + (a % 4 * 16 + b / 16) / 16,
        (a % 4 * 16 + b / 16) % 16 * 16 + b % 16 * 4 / 4] = [a, b]
      have h1 : a / 4 * 4 + (a % 4 * 16 + b / 16) / 16 = a := by omega
      have h2 : (a % 4 * 16 + b / 16) % 16 * 16 + b % 16 * 4 / 4 = b := by omega
      rw [h1, h2]
  | case4 a b c r ih =>
    intro hlt
    have ha : a < 256 := hlt a (by simp)
    have hb : b < 256 := hlt b (by simp)
    have hc : c < 256 := hlt c (by simp)
    obtain ⟨is, his, hdec⟩ := ih (fun x hx => hlt x (by simp [hx]))
    refine ⟨a / 4 :: (a % 4 * 16 + b / 16) :: (b % 16 * 4 + c / 64) :: c % 64 :: is,
      ?_, ?_⟩
    · simp only [b64EncCore, b64Idxs, b64Idx?_b64Char (a / 4) (by omega),
        b64Idx?_b64Char (a % 4 * 16 + b / 16) (by omega),
        b64Idx?_b64Char (b % 16 * 4 + c / 64) (by omega),
        b64Idx?_b64Char (c % 64) (by omega), his]
    · show (a / 4 * 4 + (a % 4 * 16 + b / 16) / 16) ::
        ((a % 4 * 16 + b / 16) % 16 * 16 + (b % 16 * 4 + c / 64) / 4) ::
        ((b % 16 * 4 + c / 64) % 4 * 64 + c % 64) :: b64DecGo is = a :: b :: c :: r
      have h1 : a / 4 * 4 + (a % 4 * 16 + b / 16) / 16 = a := by omega
      have h2 : (a % 4 * 16 + b / 16) % 16 * 16 + (b % 16 * 4 + c / 64) / 4 = b := by
        omega
      have h3 : (b % 16 * 4 + c / 64) % 4 * 64 + c % 64 = c := by omega
      rw [h1, h2, h3, hdec]

/-- The unpadded Base64 characters of a byte list never have length one more
than a multiple of four. -/
theorem b64EncCore_len : ∀ bs : List Nat, (b64EncCore bs).length % 4 ≠ 1 := by
  intro bs
  induction bs using b64EncCore.induct with
  | case1 => decide
  | case2 a => simp [b64EncCore]
  | case3 a b => simp [b64EncCore]
  | case4 a b c r ih => simp only [b64EncCore, List.length_cons]; omega

/-- atob inverts btoa on byte lists. -/
theorem atob_btoa (bs : List Nat) (hlt : ∀ b ∈ bs, b < 256) :
    atobJs (btoaEnc bs) = some bs := by
  obtain ⟨is, his, hdec⟩ := coreDec bs hlt
  unfold atobJs
  rw [btoaEnc_filter, stripPad_btoaEnc]
  show (if (b64EncCore bs).length % 4 = 1 then none
    else match b64Idxs (b64EncCore bs) with
      | some idxs => some (b64DecGo idxs)
      | none => none) = some bs
  rw [if_neg (b64EncCore_len bs), his]
  show some (b64DecGo is) = some bs
  rw [hdec]

/-- The safe characters of escape are ASCII and none is the percent sign. -/
theorem escSafe_ascii (c : Nat) (h : escSafe c = true) : c < 0x80 ∧ ¬(c = 37) := by
  unfold escSafe at h
  simp at h
  omega

/-- escape turns an unsafe byte into its two-digit percent escape. -/
theorem escChar_pct (b : Nat) (h1 : escSafe b = false) (h2 : b < 256) :
    escChar b = pctByte b := by
  unfold escChar pctByte
  rw [if_neg (by simp [h1]), if_pos h2]

/-- escape percent-escapes every byte of a list of non-ASCII bytes. -/
theorem escapeJs_hiBytes : ∀ bs : List Nat, (∀ b ∈ bs, 0x80 ≤ b ∧ b < 256) →
    escapeJs bs = bs.flatMap pctByte := by
  intro bs
  induction bs with
  | nil => intro _; rfl
  | cons b rest ih =>
    intro h
    obtain ⟨hlo, hhi⟩ := h b (by simp)
    have hs : escSafe b = false := by
      cases hq : escSafe b
      · rfl
      · exact absurd (escSafe_ascii b hq).1 (by omega)
    show escChar b ++ escapeJs rest = pctByte b ++ rest.flatMap pctByte
    rw [escChar_pct b hs hhi, ih (fun x hx => h x (by simp [hx]))]

/-- Every UTF-8 byte of a non-ASCII scalar value is a non-ASCII byte. -/
theorem utf8EncodeChar_hi (c : Nat) (hge : 0x80 ≤ c) (hlt : c < 0x110000) :
    ∀ b ∈ utf8EncodeChar c, 0x80 ≤ b ∧ b < 256 := by
  intro b hb
  unfold utf8EncodeChar at hb
  split_ifs at hb <;> simp at hb <;> omega

/-- No non-ASCII code point is unreserved for encodeURIComponent. -/
theorem uriUnreserved_hi (c : Nat) (h : 0x80 ≤ c) : uriUnreserved c = false := by
  cases hq : uriUnreserved c
  · rfl
  · exact absurd (uriUnreserved_ascii c hq).1 (by omega)

/-- The URI decoding loop maps the escape of the UTF-8 bytes of one scalar
value followed by further characters to the scalar value followed by the
decoding of the rest. -/
theorem escDec_char (c : Nat) (hc : ScalarChar c) (X : List Nat)
    (f : Nat) (hf : (escapeJs (utf8EncodeChar c) ++ X).length ≤ f + 1) :
    uriDecGo (f + 1) (escapeJs (utf8EncodeChar c) ++ X) =
      (uriDecGo X.length X).map (fun t => c :: t) := by
  rcases Nat.lt_or_ge c 0x80 with hlo | hhi
  · rw [utf8EncodeChar_a c hlo] at hf ⊢
    have hone : escapeJs [c] = escChar c := by simp [escapeJs]
    rw [hone] at hf ⊢
    by_cases hs : escSafe c = true
    · have hne : ¬(c = 37) := (escSafe_ascii c hs).2
      have hshape : escChar c = [c] := by
        unfold escChar
        rw [if_pos hs]
      rw [hshape] at hf ⊢
      rw [show ([c] ++ X) = c :: X from rfl] at hf ⊢
      rw [uriDecGo_step f c X c 1 (uriStep_lit c hne X)]
      rw [show X.drop (1 - 1) = X from rfl]
      congr 1
      exact uriDecGo_fuel f X.length X (by simp at hf; omega) (le_refl _)
    · have hs2 : escSafe c = false := by
        cases hq : escSafe c
        · rfl
        · exact absurd hq hs
      rw [escChar_pct c hs2 (by omega)] at hf ⊢
      have hsh : (pctByte c) ++ X =
          37 :: (hexUpDig (c / 16) :: hexUpDig (c % 16) :: X) := by
        simp [pctByte]
      rw [hsh] at hf ⊢
      rw [uriDecGo_step f 37 _ c 3 (uriStep_esc1 c hlo X)]
      rw [show (hexUpDig (c / 16) :: hexUpDig (c % 16) :: X).drop (3 - 1) = X from rfl]
      congr 1
      exact uriDecGo_fuel f X.length X (by simp at hf; omega) (le_refl _)
  · have hesc : escapeJs (utf8EncodeChar c) = (utf8EncodeChar c).flatMap pctByte :=
      escapeJs_hiBytes _ (utf8EncodeChar_hi c hhi hc.1)
    rw [hesc, ← encURIChar_esc c (uriUnreserved_hi c hhi)] at hf ⊢
    exact uriDecGo_enc c hc X f hf

/-- The encoding of one code unit by escape is never empty. -/
theorem escChar_ne_nil (c : Nat) : escChar c ≠ [] := by
  unfold escChar
  split_ifs <;> simp

/-- The URI decoding loop inverts the escape of the UTF-8 bytes of Unicode
text. -/
theorem escDec_flat : ∀ t : List Nat, ValidText t →
    ∀ f, (escapeJs (utf8Encode t)).length ≤ f →
    uriDecGo f (escapeJs (utf8Encode t)) = some t := by
  intro t
  induction t with
  | nil =>
    intro _ f _
    cases f <;> rfl
  | cons c t2 ih =>
    intro hv f hf
    have hshape : escapeJs (utf8Encode (c :: t2)) =
        escapeJs (utf8EncodeChar c) ++ escapeJs (utf8Encode t2) := by
      simp [escapeJs, utf8Encode]
    rw [hshape] at hf ⊢
    obtain ⟨f1, hf1⟩ : ∃ f1, f = f1 + 1 := by
      have h1 : 1 ≤ (escapeJs (utf8EncodeChar c) ++ escapeJs (utf8Encode t2)).length := by
        cases hb : utf8EncodeChar c with
        | nil => exact absurd hb (utf8EncodeChar_ne_nil c)
        | cons x xs =>
          have h2 : escapeJs (x :: xs) = escChar x ++ escapeJs xs := rfl
          cases hcc : escChar x with
          | nil => exact absurd hcc (escChar_ne_nil x)
          | cons y ys => simp [hb, h2, hcc]
      cases f with
      | zero => omega
      | succ f1 => exact ⟨f1, rfl⟩
    subst hf1
    rw [escDec_char c (hv c (by simp)) _ f1 hf]
    rw [ih (fun x hx => hv x (by simp [hx])) _ (le_refl _)]
    rfl

/-- decodeURIComponent inverts the escape of the UTF-8 bytes of Unicode
text. -/
theorem dec_escape (t : List Nat) (h : ValidText t) :
    decodeURIComponentJs (escapeJs (utf8Encode t)) = some t :=
  escDec_flat t h _ (le_refl _)

/-- Round trip of the Base64 transducers on Unicode text. -/
theorem base64_roundtrip (t : List Nat) (h : ValidText t) :
    base64ToText (textToBase64 t) = t := by
  have hns : ∀ c ∈ t, ¬(0xD800 ≤ c ∧ c ≤ 0xDFFF) := fun c hc => (h c hc).2
  have hlt : ∀ b ∈ utf8Encode t, b < 256 :=
    utf8Encode_lt_256 t (fun c hc => (h c hc).1)
  have hU : unescapeJs ((t.map encURIChar).flatten) = utf8Encode t :=
    unescGo_encFlat t h _ (le_refl _)
  have hall : (utf8Encode t).all (fun c => decide (c < 256)) = true := by
    rw [List.all_eq_true]
    intro b hb
    simpa using hlt b hb
  have hB : btoaJs (utf8Encode t) = some (btoaEnc (utf8Encode t)) := by
    unfold btoaJs
    rw [if_pos hall]
  have hT : textToBase64 t = btoaEnc (utf8Encode t) := by
    unfold textToBase64
    rw [encURI_flat t hns]
    show (match btoaJs (unescapeJs ((t.map encURIChar).flatten)) with
      | none => codes ("Encoding error")
      | some r => r) = btoaEnc (utf8Encode t)
    rw [hU, hB]
  unfold base64ToText
  rw [hT, atob_btoa _ hlt]
  show (match decodeURIComponentJs (escapeJs (utf8Encode t)) with
    | none => codes ("Invalid Base64")
    | some t2 => t2) = t
  rw [dec_escape t h]

/-- Claim C1: for every Unicode text t, each non-Morse codec round-trips
under the default options: binaryToText after textToBinary with group size
eight and a space delimiter, hexToText after textToHex with a space
delimiter, either letter case and one byte per group, base64ToText after
textToBase64, and urlDecode after urlEncode, each return t. -/
theorem claim_C1_roundtrips (t : List Nat) (up1 up2 : Bool) (h : ValidText t) :
    binaryToText (textToBinary t 8 [32] up1) = t ∧
    hexToText (textToHex t [32] up2 1) = t ∧
    base64ToText (textToBase64 t) = t ∧
    (urlEncode t).map urlDecode = some t :=
  ⟨binary_roundtrip t up1 h, hex_roundtrip t up2 h,
    base64_roundtrip t h, url_roundtrip t h⟩

/-- Witness for claim C1 at a concrete two-character text. -/
theorem claim_C1_roundtrips_witness :
    ValidText (codes ("Hi")) ∧
    (binaryToText (textToBinary (codes ("Hi")) 8 [32] true) = codes ("Hi") ∧
     hexToText (textToHex (codes ("Hi")) [32] false 1) = codes ("Hi") ∧
     base64ToText (textToBase64 (codes ("Hi"))) = codes ("Hi") ∧
     (urlEncode (codes ("Hi"))).map urlDecode = some (codes ("Hi"))) :=
  ⟨by decide, claim_C1_roundtrips (codes ("Hi")) true false (by decide)⟩

/-- encodeURIComponent throws on any text containing a lone surrogate. -/
theorem encURI_none : ∀ t : List Nat, (∃ c ∈ t, 0xD800 ≤ c ∧ c ≤ 0xDFFF) →
    encodeURIComponentJs t = none := by
  intro t
  induction t with
  | nil => intro h; simp at h
  | cons c rest ih =>
    intro h
    show (if 0xD800 ≤ c ∧ c ≤ 0xDFFF then none
      else
        match encodeURIComponentJs rest with
        | none => none
        | some r => some (encURIChar c ++ r)) = none
    obtain ⟨x, hx, hs⟩ := h
    simp only [List.mem_cons] at hx
    rcases hx with hx | hx
    · subst hx
      rw [if_pos hs]
    · by_cases hc : 0xD800 ≤ c ∧ c ≤ 0xDFFF
      · rw [if_pos hc]
      · rw [if_neg hc, ih ⟨x, hx, hs⟩]

/-- Claim C3 amended: urlEncode, bare encodeURIComponent, returns a string
exactly when the input has no lone surrogate (on a lone surrogate the
URIError escapes); textToBase64 catches that same fault and maps it to the
diagnostic string Encoding error. -/
theorem claim_C3_amended (t : List Nat) :
    ((urlEncode t).isSome ↔ ∀ c ∈ t, ¬(0xD800 ≤ c ∧ c ≤ 0xDFFF)) ∧
    ((∃ c ∈ t, 0xD800 ≤ c ∧ c ≤ 0xDFFF) →
      textToBase64 t = codes ("Encoding error")) := by
  constructor
  · constructor
    · intro hsome
      by_contra hno
      push_neg at hno
      obtain ⟨c, hc, h1, h2⟩ := hno
      rw [show urlEncode t = encodeURIComponentJs t from rfl,
        encURI_none t ⟨c, hc, h1, h2⟩] at hsome
      simp at hsome
    · intro hall
      rw [show urlEncode t = encodeURIComponentJs t from rfl, encURI_flat t hall]
      rfl
  · intro hex
    unfold textToBase64
    rw [encURI_none t hex]

/-!  Round trip of the Morse transducers with the default separators. -/

/-- Reverse lookup inverts the table on every entry: all signals are
distinct, so the first match is the right one. -/
theorem morse_rev_pairs : ∀ p ∈ morsePairs, REVMORSE p.2 = some p.1 := by decide

/-- Facts about every table entry: the signal is nonempty and consists of
dashes and dots only, and the key is not the space character. -/
theorem morse_pair_facts : ∀ p ∈ morsePairs,
    p.2 ≠ [] ∧ (∀ c ∈ p.2, c = 45 ∨ c = 46) ∧ p.1 ≠ 32 := by decide

/-- A successful MORSE lookup comes from a table entry. -/
theorem MORSE_mem (c : Nat) (sig : List Nat) (h : MORSE c = some sig) :
    (c, sig) ∈ morsePairs := by
  unfold MORSE at h
  cases hf : morsePairs.find? (fun p => p.1 == c) with
  | none => rw [hf] at h; cases h
  | some p =>
    rw [hf] at h
    have hmem : p ∈ morsePairs := List.mem_of_find?_eq_some hf
    have hpred := List.find?_some hf
    have hp1 : p.1 = c := by simpa using hpred
    have hp2 : p.2 = sig := by simpa using h
    have : p = (c, sig) := by
      rw [← hp1, ← hp2]
    rw [← this]
    exact hmem

/-- REVMORSE inverts MORSE. -/
theorem rev_of_morse (c : Nat) (sig : List Nat) (h : MORSE c = some sig) :
    REVMORSE sig = some c := by
  have := morse_rev_pairs (c, sig) (MORSE_mem c sig h)
  simpa using this

/-- The scanning split returns the unsplit rest when the matcher matches at
no position. -/
theorem splitMatchGo_none (m : List Nat → Option Nat) :
    ∀ (f : Nat) (s acc : List Nat), s.length ≤ f →
    (∀ i, m (s.drop i) = none) →
    splitMatchGo m f acc s = [acc.reverse ++ s] := by
  intro f
  induction f with
  | zero =>
    intro s acc hf _
    cases s with
    | nil => simp [splitMatchGo]
    | cons c rest => simp at hf
  | succ f ih =>
    intro s acc hf hm
    cases s with
    | nil => simp [splitMatchGo]
    | cons c rest =>
      show (match m (c :: rest) with
        | some n => acc.reverse :: splitMatchGo m f [] (rest.drop (n - 1))
        | none => splitMatchGo m f (c :: acc) rest) = [acc.reverse ++ c :: rest]
      rw [show m (c :: rest) = none from hm 0]
      rw [ih rest (c :: acc) (by simp at hf; omega)
        (fun i => by
          have := hm (i + 1)
          simpa using this)]
      simp

/-- The scanning split with a literal one-character separator agrees with
the one-character string split. -/
theorem splitMatchGo_lit (d : Nat) :
    ∀ (f : Nat) (s acc : List Nat), s.length ≤ f →
    ∀ (p : List Nat) (ps : List (List Nat)), splitOnChar d s = p :: ps →
    splitMatchGo (litMatch [d]) f acc s = (acc.reverse ++ p) :: ps := by
  intro f
  induction f with
  | zero =>
    intro s acc hf p ps hsp
    cases s with
    | nil =>
      have hp : ([] : List Nat) :: ([] : List (List Nat)) = p :: ps := hsp
      cases hp
      simp [splitMatchGo]
    | cons c rest => simp at hf
  | succ f ih =>
    intro s acc hf p ps hsp
    cases s with
    | nil =>
      have hp : ([] : List Nat) :: ([] : List (List Nat)) = p :: ps := hsp
      cases hp
      simp [splitMatchGo]
    | cons c rest =>
      show (match litMatch [d] (c :: rest) with
        | some n => acc.reverse :: splitMatchGo (litMatch [d]) f [] (rest.drop (n - 1))
        | none => splitMatchGo (litMatch [d]) f (c :: acc) rest) = (acc.reverse ++ p) :: ps
      by_cases hc : c = d
      · subst hc
        have hlm : litMatch [c] (c :: rest) = some 1 := by
          unfold litMatch
          rw [if_pos (by
            refine ⟨by simp, ?_⟩
            show ([c].isPrefixOf (c :: rest)) = true
            simp [List.isPrefixOf])]
          rfl
        rw [hlm]
        obtain ⟨p2, ps2, hrest⟩ : ∃ p2 ps2, splitOnChar c rest = p2 :: ps2 := by
          cases hq : splitOnChar c rest with
          | nil => exact absurd hq (splitOnChar_ne_nil c rest)
          | cons a b => exact ⟨a, b, rfl⟩
        have hsp2 : splitOnChar c (c :: rest) = [] :: p2 :: ps2 := by
          simp only [splitOnChar, if_true]
          rw [hrest]
        rw [hsp2] at hsp
        have hpnil : p = [] := by cases hsp; rfl
        have hps : ps = p2 :: ps2 := by cases hsp; rfl
        subst hpnil
        subst hps
        show acc.reverse :: splitMatchGo (litMatch [c]) f [] (rest.drop (1 - 1)) =
          (acc.reverse ++ []) :: p2 :: ps2
        rw [show rest.drop (1 - 1) = rest from rfl]
        rw [ih rest [] (by simp at hf; omega) _ _ hrest]
        simp
      · have hlm : litMatch [d] (c :: rest) = none := by
          unfold litMatch
          rw [if_neg (by
            intro hand
            have h2 : ([d].isPrefixOf (c :: rest)) = true := hand.2
            simp [List.isPrefixOf] at h2
            exact hc h2.symm)]
        rw [hlm]
        obtain ⟨p2, ps2, hrest⟩ : ∃ p2 ps2, splitOnChar d rest = p2 :: ps2 := by
          cases hq : splitOnChar d rest with
          | nil => exact absurd hq (splitOnChar_ne_nil d rest)
          | cons a b => exact ⟨a, b, rfl⟩
        have hsp2 : splitOnChar d (c :: rest) = (c :: p2) :: ps2 := by
          simp only [splitOnChar]
          rw [if_neg hc, hrest]
        rw [hsp2] at hsp
        have hp1 : p = c :: p2 := by cases hsp; rfl
        have hp2 : ps = ps2 := by cases hsp; rfl
        subst hp1
        subst hp2
        rw [ih rest (c :: acc) (by simp at hf; omega) _ _ hrest]
        simp

/-- String split with a literal one-character separator pattern agrees with
the one-character string split. -/
theorem splitMatch_lit (d : Nat) (s : List Nat) :
    splitMatch (litMatch [d]) s = splitOnChar d s := by
  obtain ⟨p, ps, hsp⟩ : ∃ p ps, splitOnChar d s = p :: ps := by
    cases hq : splitOnChar d s with
    | nil => exact absurd hq (splitOnChar_ne_nil d s)
    | cons a b => exact ⟨a, b, rfl⟩
  rw [hsp]
  have := splitMatchGo_lit d s.length s [] (le_refl _) p ps hsp
  simpa [splitMatch] using this

/-- Removing the first character preserves the absence of double spaces. -/
theorem noDbl_tail (c : Nat) (s : List Nat) (h : noDblSpace (c :: s) = true) :
    noDblSpace s = true := by
  cases s with
  | nil => rfl
  | cons d r =>
    rw [show noDblSpace (c :: d :: r) =
      ((decide (¬(c = 32 ∧ d = 32))) && noDblSpace (d :: r)) from rfl] at h
    exact ((Bool.and_eq_true _ _).mp h).2

/-- Dropping characters preserves the absence of double spaces. -/
theorem noDbl_drop : ∀ (i : Nat) (s : List Nat), noDblSpace s = true →
    noDblSpace (s.drop i) = true := by
  intro i
  induction i with
  | zero => intro s h; simpa using h
  | succ i ih =>
    intro s h
    cases s with
    | nil => rfl
    | cons c r =>
      show noDblSpace (r.drop i) = true
      exact ih r (noDbl_tail c r h)

/-- A space-free string has no double spaces. -/
theorem spacefree_noDbl : ∀ s : List Nat, (∀ c ∈ s, ¬(c = 32)) →
    noDblSpace s = true := by
  intro s
  induction s with
  | nil => intro _; rfl
  | cons a w ih =>
    intro h
    cases hw : w with
    | nil => rfl
    | cons b r =>
      show ((decide (¬(a = 32 ∧ b = 32))) && noDblSpace (b :: r)) = true
      have h1 : noDblSpace (b :: r) = true := by
        rw [← hw]
        exact ih (fun x hx => h x (List.mem_cons_of_mem a hx))
      have h2 : (decide (¬(a = 32 ∧ b = 32))) = true := by
        simp only [decide_eq_true_eq]
        intro hand
        exact h a (by simp) hand.1
      rw [h1, h2]
      rfl

/-- Prepending a space-free string preserves the absence of double spaces. -/
theorem noDbl_append : ∀ s v : List Nat, (∀ c ∈ s, ¬(c = 32)) →
    noDblSpace v = true → noDblSpace (s ++ v) = true := by
  intro s
  induction s with
  | nil => intro v _ hv; simpa using hv
  | cons a s2 ih =>
    intro v h hv
    have hrec : noDblSpace (s2 ++ v) = true :=
      ih v (fun x hx => h x (by simp [hx])) hv
    show noDblSpace (a :: (s2 ++ v)) = true
    cases hq : s2 ++ v with
    | nil => rfl
    | cons b r =>
      show ((decide (¬(a = 32 ∧ b = 32))) && noDblSpace (b :: r)) = true
      rw [hq] at hrec
      have h2 : (decide (¬(a = 32 ∧ b = 32))) = true := by
        simp only [decide_eq_true_eq]
        intro hand
        exact h a (by simp) hand.1
      rw [hrec, h2]
      rfl

/-- On dash-dot-space strings without double spaces, whitespace runs have
length at most one. -/
theorem spaceRun_le_one (v : List Nat) (hch : ∀ c ∈ v, c = 45 ∨ c = 46 ∨ c = 32)
    (hnd : noDblSpace v = true) : spaceRun v ≤ 1 := by
  cases v with
  | nil => simp [spaceRun]
  | cons c w =>
    rcases hch c (by simp) with h | h | h
    · subst h
      simp [spaceRun, List.takeWhile_cons, isJsSpace]
    · subst h
      simp [spaceRun, List.takeWhile_cons, isJsSpace]
    · subst h
      cases w with
      | nil => simp [spaceRun, List.takeWhile_cons, isJsSpace]
      | cons b r =>
        rw [show noDblSpace (32 :: b :: r) =
          ((decide (¬(32 = 32 ∧ b = 32))) && noDblSpace (b :: r)) from rfl] at hnd
        have hb : ¬(b = 32) := by
          have := ((Bool.and_eq_true _ _).mp hnd).1
          simp only [decide_eq_true_eq] at this
          intro hb2
          exact this ⟨trivial, hb2⟩
        have hbs : isJsSpace b = false := by
          rcases hch b (by simp) with h2 | h2 | h2
          · subst h2; decide
          · subst h2; decide
          · exact absurd h2 hb
        have h32 : isJsSpace 32 = true := by decide
        simp [spaceRun, List.takeWhile_cons, h32, hbs]

/-- The word splitter of fromMorse with the default word separator matches
nowhere on a dash-dot-space string without double spaces. -/
theorem wordSepNone (v : List Nat) (hch : ∀ c ∈ v, c = 45 ∨ c = 46 ∨ c = 32)
    (hnd : noDblSpace v = true) : wordSepMatch (codes (" / ")) v = none := by
  have h47 : ∀ c ∈ v, ¬(c = 47) := by
    intro c hc
    rcases hch c hc with h | h | h <;> omega
  have hr1 : spaceRun v ≤ 1 := spaceRun_le_one v hch hnd
  unfold wordSepMatch
  rw [if_neg (by
    intro hand
    have hmem : 47 ∈ v := by
      obtain ⟨tl, htl⟩ := List.isPrefixOf_iff_prefix.mp hand.2
      rw [← htl]
      simp [codes]
    exact h47 47 hmem rfl)]
  show (if (v.drop (spaceRun v)).head? = some 47 then
      some (spaceRun v + 1 + spaceRun (v.drop (spaceRun v + 1)))
    else if 3 ≤ spaceRun v then some (spaceRun v) else none) = none
  have hno : ¬((v.drop (spaceRun v)).head? = some 47) := by
    intro heq
    have h1 : 47 ∈ v.drop (spaceRun v) := by
      cases hdq : v.drop (spaceRun v) with
      | nil => rw [hdq] at heq; cases heq
      | cons a r =>
        rw [hdq] at heq
        have ha : a = 47 := by simpa using heq
        rw [ha]
        simp
    exact h47 47 (List.mem_of_mem_drop h1) rfl
  rw [if_neg hno, if_neg (by omega : ¬(3 ≤ spaceRun v))]

/-- The last character of a join of nonempty dash-dot signals by single
spaces is a dash or a dot. -/
theorem join_last_sig : ∀ (rest : List (List Nat)) (x : List Nat),
    (∀ w ∈ x :: rest, w ≠ [] ∧ ∀ c ∈ w, c = 45 ∨ c = 46) →
    ∃ c, (joinSep [32] (x :: rest)).getLast? = some c ∧ (c = 45 ∨ c = 46) := by
  intro rest
  induction rest with
  | nil =>
    intro x hall
    obtain ⟨hne, hch⟩ := hall x (by simp)
    obtain ⟨c, hc⟩ : ∃ c, x.getLast? = some c := by
      cases hq : x.getLast? with
      | none => exact absurd (List.getLast?_eq_none_iff.mp hq) hne
      | some c => exact ⟨c, rfl⟩
    exact ⟨c, hc, hch c (List.mem_of_getLast?_eq_some hc)⟩
  | cons y r2 ih =>
    intro x hall
    obtain ⟨c, hc, hcc⟩ := ih y (fun w hw => hall w (by
      simp only [List.mem_cons] at hw ⊢
      tauto))
    refine ⟨c, ?_, hcc⟩
    show (x ++ [32] ++ joinSep [32] (y :: r2)).getLast? = some c
    rw [List.getLast?_append_of_ne_nil (x ++ [32])
      (joinSep_ne_nil [32] y r2 (hall y (by simp)).1)]
    exact hc

/-- A join of nonempty space-free signals by single spaces has no double
spaces, and neither end is a space. -/
theorem noDbl_join : ∀ sigs : List (List Nat),
    (∀ w ∈ sigs, w ≠ [] ∧ ∀ c ∈ w, c = 45 ∨ c = 46) →
    noDblSpace (joinSep [32] sigs) = true := by
  intro sigs
  induction sigs with
  | nil => intro _; rfl
  | cons x rest ih =>
    intro hall
    obtain ⟨hne, hch⟩ := hall x (by simp)
    have hxsf : ∀ c ∈ x, ¬(c = 32) := by
      intro c hc
      rcases hch c hc with h | h <;> omega
    cases rest with
    | nil =>
      show noDblSpace x = true
      exact spacefree_noDbl x hxsf
    | cons y r2 =>
      have hrec : noDblSpace (joinSep [32] (y :: r2)) = true :=
        ih (fun w hw => hall w (by
          simp only [List.mem_cons] at hw ⊢
          tauto))
      have hhead : (joinSep [32] (y :: r2)).head? = y.head? :=
        joinSep_head [32] y r2 (hall y (by simp)).1
      show noDblSpace (x ++ [32] ++ joinSep [32] (y :: r2)) = true
      rw [List.append_assoc]
      refine noDbl_append x _ hxsf ?_
      show noDblSpace (32 :: joinSep [32] (y :: r2)) = true
      obtain ⟨b, w2, hy⟩ : ∃ b w2, y = b :: w2 := by
        cases hyq : y with
        | nil => exact absurd hyq (hall y (by simp)).1
        | cons b w2 => exact ⟨b, w2, rfl⟩
      obtain ⟨J2, hJ2⟩ : ∃ J2, joinSep [32] (y :: r2) = b :: J2 := by
        cases hJq : joinSep [32] (y :: r2) with
        | nil => exact absurd hJq (joinSep_ne_nil [32] y r2 (hall y (by simp)).1)
        | cons e J2 =>
          refine ⟨J2, ?_⟩
          have h1 : (joinSep [32] (y :: r2)).head? = some b := by
            rw [hhead, hy]
            rfl
          rw [hJq] at h1
          have he : e = b := by simpa using h1
          rw [he]
      rw [hJ2]
      show ((decide (¬(32 = 32 ∧ b = 32))) && noDblSpace (b :: J2)) = true
      rw [show b :: J2 = joinSep [32] (y :: r2) from hJ2.symm, hrec]
      have hb : ¬(b = 32) := by
        have hbm : b ∈ y := by rw [hy]; simp
        rcases (hall y (by simp)).2 b hbm with h | h <;> omega
      have h2 : (decide (¬((32:Nat) = 32 ∧ b = 32))) = true := by
        simp only [decide_eq_true_eq]
        intro hand
        exact hb hand.2
      rw [h2]
      rfl

/-- The signal of every successful MORSE lookup is nonempty and consists of
dashes and dots. -/
theorem morse_sig_of_some (ch : Nat) (sig : List Nat) (h : MORSE ch = some sig) :
    sig ≠ [] ∧ (∀ c ∈ sig, c = 45 ∨ c = 46) := by
  have := morse_pair_facts (ch, sig) (MORSE_mem ch sig h)
  exact ⟨this.1, this.2.1⟩

/-- No character with a MORSE entry is the space character. -/
theorem morse_key_ne_32 (ch : Nat) (h : (MORSE ch).isSome = true) : ¬(ch = 32) := by
  intro he
  subst he
  rw [show MORSE 32 = none from by decide] at h
  simp at h

/-- On a word of table characters the encoding map produces the signals and
the empty-signal filter removes nothing. -/
theorem enc_map_filter (ku : Bool) : ∀ T : List Nat,
    (∀ ch ∈ T, (MORSE ch).isSome = true) →
    ((T.map (fun ch =>
      match MORSE ch with
      | some code => code
      | none => if ku then [ch] else [])).filter (fun s => !s.isEmpty))
    = T.map (fun ch => (MORSE ch).getD []) := by
  intro T
  induction T with
  | nil => intro _; rfl
  | cons ch rest ih =>
    intro h
    have hSome := h ch (by simp)
    obtain ⟨sig, hsig⟩ : ∃ sig, MORSE ch = some sig := by
      cases hq : MORSE ch with
      | none => rw [hq] at hSome; simp at hSome
      | some s => exact ⟨s, rfl⟩
    obtain ⟨hne, _⟩ := morse_sig_of_some ch sig hsig
    have hie : sig.isEmpty = false := by
      cases sig with
      | nil => exact absurd rfl hne
      | cons a w => rfl
    simp only [List.map_cons, List.filter_cons, hsig, Option.getD_some, hie,
      Bool.not_false, if_true]
    rw [ih (fun x hx => h x (by simp [hx]))]

/-- toMorse with a single-space letter separator on space-free table text:
uppercase, encode every character, join the signals with single spaces (the
word separator joins the one-word list, so it does not appear). -/
theorem toMorse_shape (t : List Nat) (W : List Nat) (ku : Bool)
    (h : ∀ c ∈ t, (MORSE (asciiUpper c)).isSome = true) :
    toMorse t [32] W ku =
      joinSep [32] ((t.map asciiUpper).map (fun ch => (MORSE ch).getD [])) := by
  have hT : ∀ ch ∈ t.map asciiUpper, (MORSE ch).isSome = true := by
    intro ch hch
    simp only [List.mem_map] at hch
    obtain ⟨c, hc, hcc⟩ := hch
    subst hcc
    exact h c hc
  have hT32 : ∀ ch ∈ t.map asciiUpper, ¬(ch = 32) :=
    fun ch hch => morse_key_ne_32 ch (hT ch hch)
  unfold toMorse
  have hsplit : splitOnChar 32 (t.map asciiUpper) = [t.map asciiUpper] := by
    have h0 : splitOnChar 32 ([] : List Nat) = [] :: [] := rfl
    have := splitOnChar_free_prefix 32 (t.map asciiUpper) [] [] [] h0 hT32
    simpa using this
  rw [hsplit]
  simp only [List.map_cons, List.map_nil]
  show joinSep [32] (((t.map asciiUpper).map (fun ch =>
      match MORSE ch with
      | some code => code
      | none => if ku then [ch] else [])).filter (fun s => !s.isEmpty)) =
    joinSep [32] ((t.map asciiUpper).map (fun ch => (MORSE ch).getD []))
  rw [enc_map_filter ku (t.map asciiUpper) hT]

/-- normalizePunctuation fixes dash-dot-space strings whose ends are not
whitespace. -/
theorem normalize_fix (E : List Nat) (hch : ∀ c ∈ E, c = 45 ∨ c = 46 ∨ c = 32)
    (hh : ∀ c, E.head? = some c → isJsSpace c = false)
    (hl : ∀ c, E.getLast? = some c → isJsSpace c = false) :
    normalizePunctuation E = E := by
  unfold normalizePunctuation
  have hmap : E.map normChar = E := map_id_of _ E (fun c hc => by
    rcases hch c hc with h | h | h <;> (subst h; decide))
  rw [hmap]
  have hfil : E.filter (fun c => !isZeroWidth c) = E := by
    rw [List.filter_eq_self]
    intro x hx
    rcases hch x hx with h | h | h <;> (subst h; decide)
  rw [hfil]
  exact trimJs_eq E hh hl

/-- Decoding the signal list of table text recovers the text. -/
theorem dec_sigs : ∀ T : List Nat, (∀ ch ∈ T, (MORSE ch).isSome = true) →
    (((T.map (fun ch => (MORSE ch).getD [])).map (fun sym =>
      match REVMORSE sym with
      | some t2 => [t2]
      | none => if (false : Bool) then [0xFFFD] else [])).flatten) = T := by
  intro T
  induction T with
  | nil => intro _; rfl
  | cons ch rest ih =>
    intro h
    have hSome := h ch (by simp)
    obtain ⟨sig, hsig⟩ : ∃ sig, MORSE ch = some sig := by
      cases hq : MORSE ch with
      | none => rw [hq] at hSome; simp at hSome
      | some s => exact ⟨s, rfl⟩
    simp only [List.map_cons, hsig, Option.getD_some, rev_of_morse ch sig hsig,
      List.flatten_cons]
    rw [ih (fun x hx => h x (by simp [hx]))]
    rfl

/-- Claim C2 amended: with the default separators (letter separator a single
space, word separator space slash space) and keepUnknown and strict false,
fromMorse inverts toMorse up to uppercasing on every text whose characters
are present, case-insensitively, in the Morse symbol table. -/
theorem claim_C2_amended (t : List Nat)
    (h : ∀ c ∈ t, (MORSE (asciiUpper c)).isSome = true) :
    fromMorse (toMorse t [32] (codes (" / ")) false) [32] (codes (" / ")) false
      = t.map asciiUpper := by
  by_cases htn : t = []
  · subst htn
    decide
  · have hT : ∀ ch ∈ t.map asciiUpper, (MORSE ch).isSome = true := by
      intro ch hch
      simp only [List.mem_map] at hch
      obtain ⟨c, hc, hcc⟩ := hch
      subst hcc
      exact h c hc
    rw [toMorse_shape t (codes (" / ")) false h]
    have hsgood : ∀ w ∈ (t.map asciiUpper).map (fun ch => (MORSE ch).getD []),
        w ≠ [] ∧ ∀ c ∈ w, c = 45 ∨ c = 46 := by
      intro w hw
      simp only [List.mem_map] at hw
      obtain ⟨ch, hch, hcc⟩ := hw
      have hSome := hT ch (List.mem_map.mpr hch)
      obtain ⟨sig, hsig⟩ : ∃ sig, MORSE ch = some sig := by
        cases hq : MORSE ch with
        | none => rw [hq] at hSome; simp at hSome
        | some s => exact ⟨s, rfl⟩
      rw [← hcc, hsig, Option.getD_some]
      exact morse_sig_of_some ch sig hsig
    obtain ⟨c0, t0, ht2⟩ : ∃ c0 t0, t = c0 :: t0 := by
      cases t with
      | nil => exact absurd rfl htn
      | cons a b => exact ⟨a, b, rfl⟩
    obtain ⟨s0, srest, hsigs⟩ : ∃ s0 srest,
        (t.map asciiUpper).map (fun ch => (MORSE ch).getD []) = s0 :: srest := by
      refine ⟨(MORSE (asciiUpper c0)).getD [],
        (t0.map asciiUpper).map (fun ch => (MORSE ch).getD []), ?_⟩
      rw [ht2]
      simp
    have hs0 := hsgood s0 (by rw [hsigs]; simp)
    have hEch : ∀ c ∈ joinSep [32]
        ((t.map asciiUpper).map (fun ch => (MORSE ch).getD [])),
        c = 45 ∨ c = 46 ∨ c = 32 := by
      intro c hc
      rcases joinSep_mem [32] _ c hc with h1 | ⟨p, hp, hcp⟩
      · right; right; simpa using h1
      · rcases (hsgood p hp).2 c hcp with h2 | h2
        · left; exact h2
        · right; left; exact h2
    have hEnd : noDblSpace (joinSep [32]
        ((t.map asciiUpper).map (fun ch => (MORSE ch).getD []))) = true :=
      noDbl_join _ hsgood
    have hEhead : ∀ c, (joinSep [32]
        ((t.map asciiUpper).map (fun ch => (MORSE ch).getD []))).head? = some c →
        isJsSpace c = false := by
      intro c hc
      rw [hsigs, joinSep_head [32] s0 srest hs0.1] at hc
      have hcm : c ∈ s0 := by
        cases hq : s0 with
        | nil => rw [hq] at hc; cases hc
        | cons a w =>
          rw [hq] at hc
          have ha : a = c := by simpa using hc
          rw [← ha]
          simp
      rcases hs0.2 c hcm with h2 | h2 <;> (subst h2; decide)
    have hElast : ∀ c, (joinSep [32]
        ((t.map asciiUpper).map (fun ch => (MORSE ch).getD []))).getLast? = some c →
        isJsSpace c = false := by
      intro c hc
      obtain ⟨c2, hc2, hcc2⟩ := join_last_sig srest s0 (by rw [← hsigs]; exact hsgood)
      rw [hsigs, hc2] at hc
      have he : c2 = c := by simpa using hc
      subst he
      rcases hcc2 with h2 | h2 <;> (subst h2; decide)
    have hEne : joinSep [32]
        ((t.map asciiUpper).map (fun ch => (MORSE ch).getD [])) ≠ [] := by
      rw [hsigs]
      exact joinSep_ne_nil [32] s0 srest hs0.1
    have hEie : (joinSep [32]
        ((t.map asciiUpper).map (fun ch => (MORSE ch).getD []))).isEmpty = false := by
      cases hq : joinSep [32] ((t.map asciiUpper).map (fun ch => (MORSE ch).getD [])) with
      | nil => exact absurd hq hEne
      | cons a w => rfl
    simp only [fromMorse]
    rw [normalize_fix _ hEch hEhead hElast]
    have hwords : splitMatch (wordSepMatch (codes (" / ")))
        (joinSep [32] ((t.map asciiUpper).map (fun ch => (MORSE ch).getD []))) =
        [joinSep [32] ((t.map asciiUpper).map (fun ch => (MORSE ch).getD []))] := by
      have hgo := splitMatchGo_none (wordSepMatch (codes (" / ")))
        (joinSep [32] ((t.map asciiUpper).map (fun ch => (MORSE ch).getD []))).length
        (joinSep [32] ((t.map asciiUpper).map (fun ch => (MORSE ch).getD []))) []
        (le_refl _)
        (fun i => wordSepNone _ (fun c hc => hEch c (List.mem_of_mem_drop hc))
          (noDbl_drop i _ hEnd))
      simpa [splitMatch] using hgo
    rw [hwords]
    have hfilw : ([joinSep [32] ((t.map asciiUpper).map (fun ch => (MORSE ch).getD []))]).filter
        (fun w => !w.isEmpty) =
        [joinSep [32] ((t.map asciiUpper).map (fun ch => (MORSE ch).getD []))] := by
      rw [List.filter_eq_self]
      intro a ha
      have ha2 : a = joinSep [32] ((t.map asciiUpper).map (fun ch => (MORSE ch).getD [])) := by
        simpa using ha
      rw [ha2, hEie]
      rfl
    rw [hfilw]
    simp only [List.map_cons, List.map_nil]
    rw [if_neg (by decide : ¬(([32] : List Nat).isEmpty = true))]
    rw [splitMatch_lit 32 _]
    have hsplitE : splitOnChar 32
        (joinSep [32] ((t.map asciiUpper).map (fun ch => (MORSE ch).getD []))) =
        (t.map asciiUpper).map (fun ch => (MORSE ch).getD []) :=
      splitOnChar_joinSep 32 _ (by rw [hsigs]; simp)
        (fun w hw c hc => by rcases (hsgood w hw).2 c hc with h2 | h2 <;> omega)
    rw [hsplitE]
    have hfils : ((t.map asciiUpper).map (fun ch => (MORSE ch).getD [])).filter
        (fun sym => !sym.isEmpty) =
        (t.map asciiUpper).map (fun ch => (MORSE ch).getD []) := by
      rw [List.filter_eq_self]
      intro w hw
      cases hq : w with
      | nil => exact absurd hq (hsgood w hw).1
      | cons a l => rfl
    rw [hfils]
    rw [dec_sigs (t.map asciiUpper) hT]
    rfl

/-- Witness for the amended claim C2 at the text SOS. -/
theorem claim_C2_amended_witness :
    (∀ c ∈ codes ("SOS"), (MORSE (asciiUpper c)).isSome = true) ∧
    fromMorse (toMorse (codes ("SOS")) [32] (codes (" / ")) false) [32]
      (codes (" / ")) false = (codes ("SOS")).map asciiUpper :=
  ⟨by decide, claim_C2_amended (codes ("SOS")) (by decide)⟩

end CodeTranslators
